import Mathlib

/-!
# EasyAntiLeak: the exit-time analysis pass of `easyantileak.hpp`

A shallow embedding of the event model (`AllocType`, `AllocEvent`), of the comparator
`AllocSizeCompare`, of the lambda registered by `setUpTrace`, which walks
`allocationEvents` once and prints the leak report, and of the recorder: `setUpTrace`,
`setUpTraceFile`, `operator new`, `operator new[]`, the `delete` macro and
`operator delete[]`.

Modelling conventions.

* `void *` is an address, a natural number; the null pointer is `0`.
* `unsigned long long` is a natural number and every `+=` / `-` on it is taken modulo `2 ^ 64`.
* `std::priority_queue<AllocEvent, std::vector<AllocEvent>, AllocSizeCompare>` is a list kept in
  priority order, the top first.  The container only promises that the top is an entry that
  the comparator ranks below no other entry; which of several equally ranked entries is on top
  is left to the library, and the model takes the one pushed first.
* `std::unordered_multimap<void *, AllocEvent>` is a list of key/value pairs.  The iteration
  order and which of several entries with equal keys `find` returns are left to the library;
  the model iterates in insertion order and `find` returns the entry inserted first.
* `objectAllocs.top()` on an empty queue and `allocated.find(p)->second` when `p` is not a key
  are undefined behaviour in the source; the embedding returns `none` there.
-/

namespace EasyAntiLeak

/-- Word size of `unsigned long long`. -/
def ullMod : Nat := 2 ^ 64

/-- The `enum AllocType`. -/
inductive AllocType where
  | AllocType_New
  | AllocType_NewArray
  | AllocType_Delete
  | AllocType_DeleteArray
  deriving DecidableEq, Repr

open AllocType

/-- The `struct AllocEvent`. -/
structure AllocEvent where
  file : String
  func : String
  line : Int
  type : AllocType
  size : Nat
  ptr : Nat
  deriving DecidableEq, Repr

/-- The four-argument constructor of `AllocEvent`: `size{}` and `ptr{}` stay zero / null. -/
def AllocEvent.mk4 (file func : String) (line : Int) (type : AllocType) : AllocEvent :=
  { file := file, func := func, line := line, type := type, size := 0, ptr := 0 }

/-- The comparator `AllocSizeCompare::operator()`: `x.size > y.size`. -/
def AllocSizeCompare (x y : AllocEvent) : Bool := decide (x.size > y.size)

/-! ## The priority queue `objectAllocs` -/

/-- The model of `objectAllocs.push(e)`: `e` is placed in front of the first entry that the
comparator ranks below it. -/
def pqPush (e : AllocEvent) : List AllocEvent → List AllocEvent
  | [] => [e]
  | y :: ys => if AllocSizeCompare y e then e :: y :: ys else y :: pqPush e ys

/-- The model of `objectAllocs.top()`; `none` on an empty queue. -/
def pqTop : List AllocEvent → Option AllocEvent
  | [] => none
  | y :: _ => some y

/-- The model of `objectAllocs.pop()`. -/
def pqPop : List AllocEvent → List AllocEvent
  | [] => []
  | _ :: ys => ys

/-! ## The multimap `allocated` -/

/-- The model of `allocated.insert({k, e})`. -/
def mmInsert (k : Nat) (e : AllocEvent) (m : List (Nat × AllocEvent)) : List (Nat × AllocEvent) :=
  m ++ [(k, e)]

/-- The model of `allocated.find(k)->second`; `none` when `find` returns `end()`. -/
def mmFind (k : Nat) : List (Nat × AllocEvent) → Option AllocEvent
  | [] => none
  | (k', e) :: m => if k' = k then some e else mmFind k m

/-- The model of `allocated.erase(k)`: every entry stored under `k` goes. -/
def mmErase (k : Nat) : List (Nat × AllocEvent) → List (Nat × AllocEvent)
  | [] => []
  | (k', e) :: m => if k' = k then mmErase k m else (k', e) :: mmErase k m

/-! ## The event loop -/

/-- The local variables of the analysis lambda. -/
structure Analysis where
  totalAlloc : Nat
  totalDealloc : Nat
  objectAllocs : List AllocEvent
  allocated : List (Nat × AllocEvent)
  deriving DecidableEq, Repr

/-- The variables as declared in front of the loop. -/
def Analysis.init : Analysis :=
  { totalAlloc := 0, totalDealloc := 0, objectAllocs := [], allocated := [] }

/-- One iteration of `for (auto &event : allocationEvents)`. -/
def step (s : Analysis) (event : AllocEvent) : Option Analysis :=
  match event.type with
  | AllocType_New =>
      some { s with
        totalAlloc := (s.totalAlloc + event.size) % ullMod
        objectAllocs := pqPush event s.objectAllocs
        allocated := mmInsert event.ptr event s.allocated }
  | AllocType_NewArray =>
      some { s with
        totalAlloc := (s.totalAlloc + event.size) % ullMod
        allocated := mmInsert event.ptr event s.allocated }
  | AllocType_Delete =>
      match pqTop s.objectAllocs with
      | none => none
      | some e =>
          some { s with
            totalDealloc := (s.totalDealloc + e.size) % ullMod
            allocated := mmErase e.ptr s.allocated
            objectAllocs := pqPop s.objectAllocs }
  | AllocType_DeleteArray =>
      match mmFind event.ptr s.allocated with
      | none => none
      | some e =>
          some { s with
            totalDealloc := (s.totalDealloc + e.size) % ullMod
            allocated := mmErase e.ptr s.allocated }

/-- The whole loop, started in state `s`. -/
def runFrom : Analysis → List AllocEvent → Option Analysis
  | s, [] => some s
  | s, event :: events =>
      match step s event with
      | none => none
      | some s' => runFrom s' events

/-- The loop over `allocationEvents`, started with the declared variables. -/
def runEvents (allocationEvents : List AllocEvent) : Option Analysis :=
  runFrom Analysis.init allocationEvents

/-! ## The report -/

/-- A leak line of the report, by its label and the four values printed after it. -/
inductive LeakLine where
  | confirmedLeakedArray (size : Nat) (func file : String) (line : Int)
  | possibleLeakedObject (size : Nat) (func file : String) (line : Int)
  deriving DecidableEq, Repr

/-- The text written for a leak line. -/
def LeakLine.render : LeakLine → String
  | .confirmedLeakedArray size func file line =>
      "Confirmed leaked array: " ++ toString size ++ "B in " ++ func ++ " in " ++ file ++ ":"
        ++ toString line
  | .possibleLeakedObject size func file line =>
      "Possible leaked object: " ++ toString size ++ "B in " ++ func ++ " in " ++ file ++ ":"
        ++ toString line

/-- The first loop over `allocated`: it sets `containsObjectLeak` and writes the
"Confirmed leaked array" lines. -/
def confirmedLoop : List (Nat × AllocEvent) → Bool × List LeakLine
  | [] => (false, [])
  | (_, second) :: rest =>
      let r := confirmedLoop rest
      if second.type = AllocType_New then (true, r.2)
      else if second.type = AllocType_NewArray then
        (r.1, LeakLine.confirmedLeakedArray second.size second.func second.file second.line :: r.2)
      else r

/-- The second loop over `allocated`: the "Possible leaked object" lines. -/
def possibleLoop : List (Nat × AllocEvent) → List LeakLine
  | [] => []
  | (_, second) :: rest =>
      if second.type = AllocType_New then
        LeakLine.possibleLeakedObject second.size second.func second.file second.line
          :: possibleLoop rest
      else possibleLoop rest

/-- What the lambda writes after the loop. -/
structure Report where
  totalAllocated : Nat
  totalDeallocated : Nat
  totalLeakedSize : Nat
  totalLeakedCount : Nat
  leakLines : List LeakLine
  deriving DecidableEq, Repr

/-- The four totals and the leak lines, from the state the loop ends in. -/
def report (s : Analysis) : Report :=
  let c := confirmedLoop s.allocated
  { totalAllocated := s.totalAlloc
    totalDeallocated := s.totalDealloc
    totalLeakedSize := (s.totalAlloc + ullMod - s.totalDealloc) % ullMod
    totalLeakedCount := s.allocated.length
    leakLines := c.2 ++ (if c.1 then possibleLoop s.allocated else []) }

/-- The analysis lambda: the loop, then the report. -/
def analysis (allocationEvents : List AllocEvent) : Option Report :=
  (runEvents allocationEvents).map report

/-! ## Vocabulary of the properties -/

/-- The sum of the sizes of the allocation events (`new` and `new[]`) of a log. -/
def allocatedSizes : List AllocEvent → Nat
  | [] => 0
  | e :: es =>
      if e.type = AllocType_New ∨ e.type = AllocType_NewArray then e.size + allocatedSizes es
      else allocatedSizes es

/-- An entry of `allocated` that a `new` event put there. -/
def isObjectEntry (p : Nat × AllocEvent) : Bool := decide (p.2.type = AllocType_New)

/-- An entry of `allocated` that a `new[]` event put there. -/
def isArrayEntry (p : Nat × AllocEvent) : Bool := decide (p.2.type = AllocType_NewArray)

/-- The "Confirmed leaked array" line of an event. -/
def confirmedOf (e : AllocEvent) : LeakLine :=
  LeakLine.confirmedLeakedArray e.size e.func e.file e.line

/-- The "Possible leaked object" line of an event. -/
def possibleOf (e : AllocEvent) : LeakLine :=
  LeakLine.possibleLeakedObject e.size e.func e.file e.line

/-- Whether a leak line carries the label "Confirmed leaked array". -/
def LeakLine.isConfirmed : LeakLine → Bool
  | .confirmedLeakedArray _ _ _ _ => true
  | .possibleLeakedObject _ _ _ _ => false

/-- Whether the log holds a `delete[]` event with address `k`. -/
def hasArrayFree (k : Nat) (log : List AllocEvent) : Bool :=
  log.any (fun f => decide (f.type = AllocType_DeleteArray ∧ f.ptr = k))

/-- The `new[]` events of a log that no later `delete[]` event with the same address follows,
in log order. -/
def unfreedArrays : List AllocEvent → List AllocEvent
  | [] => []
  | e :: rest =>
      if e.type = AllocType_NewArray ∧ hasArrayFree e.ptr rest = false then
        e :: unfreedArrays rest
      else unfreedArrays rest

/-- The entries that the `new` and `new[]` events of a log put into `allocated`, in log
order. -/
def allocEntries : List AllocEvent → List (Nat × AllocEvent)
  | [] => []
  | e :: es =>
      if e.type = AllocType_New ∨ e.type = AllocType_NewArray then (e.ptr, e) :: allocEntries es
      else allocEntries es

/-! ## Sample events -/

/-- A `new` event as `operator new` records it, at a sample call site. -/
def sampleNew (size ptr : Nat) : AllocEvent :=
  { file := "main.cpp", func := "main", line := 10, type := AllocType_New, size := size,
    ptr := ptr }

/-- A `new[]` event as `operator new[]` records it, at a sample call site. -/
def sampleNewArray (size ptr : Nat) : AllocEvent :=
  { file := "main.cpp", func := "fill", line := 30, type := AllocType_NewArray, size := size,
    ptr := ptr }

/-- A `delete` event as the `delete` macro records it, at a sample call site. -/
def sampleDelete : AllocEvent := AllocEvent.mk4 "main.cpp" "main" 20 AllocType_Delete

/-- A `delete` event after `operator delete[]` has turned it into a `delete[]` event. -/
def sampleDeleteArray (ptr : Nat) : AllocEvent :=
  { sampleDelete with type := AllocType_DeleteArray, ptr := ptr }

/-! ## The recorder: `operator new`, `operator new[]`, the `delete` macro, `operator delete[]`

The globals `allocationLog` and `allocationEvents`, together with the functions that
`std::atexit` has been given, make up the state of the tracer.  A stream is named by its
address, and what is written to it is kept as a list of structured lines.  Before
`setUpTrace` the pointer `allocationLog` is null: `operator new`, `operator new[]`, the
`delete` macro and the analysis lambda write through it, and so does `setUpTrace` itself
through the pointer it has been given, which is undefined behaviour in the source while the
pointer is null; the embedding returns `none` there.  `operator delete[]` is modelled
on the event log: a non-empty log has been written by a recorder operation that returned,
hence with the sink set up.
`std::prev(allocationEvents.end())` on an empty vector is undefined behaviour as well and
gives `none`.  `std::malloc` and `new std::ofstream` are outside the source; the address
they return is an argument of the model.  `std::free` has no effect on the state of the
tracer. -/

/-- A line written to `*allocationLog` while the program runs. -/
inductive TraceLine where
  | runtimeTraceHeader
  | traceNew (size : Nat) (function file : String) (line : Int) (ptr : Nat)
  | traceNewArray (size : Nat) (function file : String) (line : Int) (ptr : Nat)
  | traceDelete (function file : String) (line : Int)
  | lastDeleteWasArray (ptr : Nat)
  deriving DecidableEq, Repr

/-- A function registered with `std::atexit`; the source registers only the analysis lambda. -/
inductive ExitHook where
  | analysisPass
  deriving DecidableEq, Repr

/-- The process-wide state of the tracer. -/
structure Tracer where
  allocationLog : Nat
  allocationEvents : List AllocEvent
  exitHooks : List ExitHook
  written : List (Nat × TraceLine)
  deriving DecidableEq, Repr

/-- The state at program start: null `allocationLog`, no event, no exit hook. -/
def Tracer.start : Tracer :=
  { allocationLog := 0, allocationEvents := [], exitHooks := [], written := [] }

/-- The function `setUpTrace(stream)`; `none` when `stream` is null, where the header line is
written through a null `allocationLog`. -/
def setUpTrace (stream : Nat) (t : Tracer) : Option Tracer :=
  if stream = 0 then none
  else
    some { t with
      allocationLog := stream
      exitHooks := t.exitHooks ++ [ExitHook.analysisPass]
      written := t.written ++ [(stream, TraceLine.runtimeTraceHeader)] }

/-- The function `setUpTraceFile(fileName)`; `stream` is the address of the new
`std::ofstream`. -/
def setUpTraceFile (_fileName : String) (stream : Nat) (t : Tracer) : Option Tracer :=
  setUpTrace stream t

/-- A call of one of the two set-up functions. -/
inductive SetUpCall where
  | trace (stream : Nat)
  | traceFile (fileName : String) (stream : Nat)
  deriving DecidableEq, Repr

/-- The functions registered with `std::atexit`, run in the order given: each run of the
analysis lambda writes one report block through `allocationLog`. A pass that fails ends the
process, so nothing comes back at all. -/
def runHooks (t : Tracer) : List ExitHook → Option (List Report)
  | [] => some []
  | ExitHook.analysisPass :: hooks =>
      if t.allocationLog = 0 then none
      else
        match analysis t.allocationEvents with
        | none => none
        | some r =>
            match runHooks t hooks with
            | none => none
            | some blocks => some (r :: blocks)

/-- What runs at process exit: the registered functions in reverse order of registration.
The result is the list of the report blocks written. -/
def runExitHooks (t : Tracer) : Option (List Report) :=
  runHooks t t.exitHooks.reverse

/-- The function `operator new(size, file, line, function)`; `ptr` is what `std::malloc`
returned. The result is the returned pointer and the new state; `none` when
`allocationLog` is null. -/
def operatorNew (size : Nat) (file : String) (line : Int) (function : String) (ptr : Nat)
    (t : Tracer) : Option (Nat × Tracer) :=
  if t.allocationLog = 0 then none
  else
    some (ptr,
      { t with
        allocationEvents := t.allocationEvents ++
          [{ file := file, func := function, line := line, type := AllocType_New,
             size := size, ptr := ptr }]
        written := t.written ++
          [(t.allocationLog, TraceLine.traceNew size function file line ptr)] })

/-- The function `operator new[](size, file, line, function)`; `ptr` is what `std::malloc`
returned. The result is the returned pointer and the new state; `none` when
`allocationLog` is null. -/
def operatorNewArray (size : Nat) (file : String) (line : Int) (function : String) (ptr : Nat)
    (t : Tracer) : Option (Nat × Tracer) :=
  if t.allocationLog = 0 then none
  else
    some (ptr,
      { t with
        allocationEvents := t.allocationEvents ++
          [{ file := file, func := function, line := line, type := AllocType_NewArray,
             size := size, ptr := ptr }]
        written := t.written ++
          [(t.allocationLog, TraceLine.traceNewArray size function file line ptr)] })

/-- The recording part of the `delete` macro, at the call site `file`, `function`, `line`:
the `push_back` of a four-argument `AllocEvent` and the line written to the sink; `none`
when `allocationLog` is null. -/
def deleteMacro (file function : String) (line : Int) (t : Tracer) : Option Tracer :=
  if t.allocationLog = 0 then none
  else
    some { t with
      allocationEvents :=
        t.allocationEvents ++ [AllocEvent.mk4 file function line AllocType_Delete]
      written := t.written ++ [(t.allocationLog, TraceLine.traceDelete function file line)] }

/-- The function `operator delete[](ptr)`; `none` when `allocationEvents` is empty, where
`lastEvent` is no element of the vector. -/
def operatorDeleteArray (ptr : Nat) (t : Tracer) : Option Tracer :=
  match t.allocationEvents.getLast? with
  | none => none
  | some lastEvent =>
      some { t with
        allocationEvents :=
          if lastEvent.type = AllocType_Delete then
            t.allocationEvents.dropLast ++
              [{ lastEvent with type := AllocType_DeleteArray, ptr := ptr }]
          else t.allocationEvents
        written := t.written ++ [(t.allocationLog, TraceLine.lastDeleteWasArray ptr)] }

/-- A call into the tracer made by the running program. -/
inductive TracerOp where
  | setUp (call : SetUpCall)
  | callNew (size : Nat) (file : String) (line : Int) (function : String) (ptr : Nat)
  | callNewArray (size : Nat) (file : String) (line : Int) (function : String) (ptr : Nat)
  | callDelete (file function : String) (line : Int)
  | callDeleteArray (ptr : Nat)
  deriving DecidableEq, Repr

/-- The effect of one call on the state of the tracer; `none` when the call does not
return. -/
def TracerOp.apply : TracerOp → Tracer → Option Tracer
  | TracerOp.setUp (SetUpCall.trace stream), t => setUpTrace stream t
  | TracerOp.setUp (SetUpCall.traceFile fileName stream), t =>
      setUpTraceFile fileName stream t
  | TracerOp.callNew size file line function ptr, t =>
      (operatorNew size file line function ptr t).map Prod.snd
  | TracerOp.callNewArray size file line function ptr, t =>
      (operatorNewArray size file line function ptr t).map Prod.snd
  | TracerOp.callDelete file function line, t => deleteMacro file function line t
  | TracerOp.callDeleteArray ptr, t => operatorDeleteArray ptr t

/-- The calls of a program, in program order. -/
def runProgram : List TracerOp → Tracer → Option Tracer
  | [], t => some t
  | op :: ops, t =>
      match op.apply t with
      | none => none
      | some t' => runProgram ops t'

/-- The number of calls of `setUpTrace` and `setUpTraceFile` in a program. -/
def countSetUps : List TracerOp → Nat
  | [] => 0
  | TracerOp.setUp _ :: ops => countSetUps ops + 1
  | _ :: ops => countSetUps ops

/-! ## Vocabulary of the properties of whole logs -/

/-- The number of `new` events of a log. -/
def countNew (log : List AllocEvent) : Nat :=
  log.countP (fun e => decide (e.type = AllocType_New))

/-- The number of `delete` events of a log. -/
def countDelete (log : List AllocEvent) : Nat :=
  log.countP (fun e => decide (e.type = AllocType_Delete))

/-- The number of allocation events (`new` and `new[]`) of a log. -/
def countAllocs (log : List AllocEvent) : Nat :=
  log.countP (fun e => decide (e.type = AllocType_New ∨ e.type = AllocType_NewArray))

/-- The number of free events (`delete` and `delete[]`) of a log. -/
def countFrees (log : List AllocEvent) : Nat :=
  log.countP (fun e => decide (e.type = AllocType_Delete ∨ e.type = AllocType_DeleteArray))

/-- The sum of the sizes of the entries of `allocated`. -/
def outstandingSizes (m : List (Nat × AllocEvent)) : Nat :=
  (m.map (fun p => p.2.size)).sum

/-- Whether, on the run over `log` from state `s`, every `delete` event is met with a
non-empty queue and every `delete[]` event carries the address of an array entry of
`allocated`. Nothing is asked of the events behind a step that fails. -/
def freesMatch : Analysis → List AllocEvent → Bool
  | _, [] => true
  | s, e :: es =>
      (match e.type with
        | AllocType_Delete => !s.objectAllocs.isEmpty
        | AllocType_DeleteArray =>
            s.allocated.any (fun p => decide (p.1 = e.ptr) && isArrayEntry p)
        | _ => true) &&
      (match step s e with
        | none => true
        | some s' => freesMatch s' es)

/-- Whether, on the run over `log` from state `s`, some `delete` step is reached with an
empty queue, so that the branch reads the top of an empty queue. -/
def readsEmptyTop : Analysis → List AllocEvent → Bool
  | _, [] => false
  | s, e :: es =>
      (decide (e.type = AllocType_Delete) && s.objectAllocs.isEmpty) ||
      (match step s e with
        | none => false
        | some s' => readsEmptyTop s' es)

/-- Whether, on the run over `log` from state `s`, every `delete[]` event that is reached
finds its address among the keys of `allocated`. -/
def arrayFreesFound : Analysis → List AllocEvent → Bool
  | _, [] => true
  | s, e :: es =>
      (!decide (e.type = AllocType_DeleteArray) || (mmFind e.ptr s.allocated).isSome) &&
      (match step s e with
        | none => true
        | some s' => arrayFreesFound s' es)

/-- The sum of the `k` smallest of the given sizes. -/
def smallestSum (sizes : List Nat) (k : Nat) : Nat :=
  ((sizes.insertionSort (fun a b => a ≤ b)).take k).sum

/-! ## Basic facts about the containers and the loop -/

theorem mmErase_eq_filter (k : Nat) (m : List (Nat × AllocEvent)) :
    mmErase k m = m.filter (fun p => decide (p.1 ≠ k)) := by
  induction m with
  | nil => rfl
  | cons p m ih =>
    obtain ⟨k', e⟩ := p
    by_cases h : k' = k <;> simp [mmErase, h, ih]

theorem mem_pqPush (x e : AllocEvent) (q : List AllocEvent) :
    x ∈ pqPush e q ↔ x = e ∨ x ∈ q := by
  induction q with
  | nil => simp [pqPush]
  | cons y ys ih =>
    by_cases h : AllocSizeCompare y e = true
    · simp [pqPush, h]
    · simp only [pqPush, h, Bool.false_eq_true, if_false, List.mem_cons, ih]
      tauto

theorem pqPush_perm (e : AllocEvent) (q : List AllocEvent) : (pqPush e q).Perm (e :: q) := by
  induction q with
  | nil => simp [pqPush]
  | cons y ys ih =>
    by_cases h : AllocSizeCompare y e = true
    · simp [pqPush, h]
    · simp only [pqPush, h]
      exact (List.Perm.cons y ih).trans (List.Perm.swap e y ys)

theorem runFrom_append (s : Analysis) (l₁ l₂ : List AllocEvent) :
    runFrom s (l₁ ++ l₂) = (runFrom s l₁).bind (fun s' => runFrom s' l₂) := by
  induction l₁ generalizing s with
  | nil => rfl
  | cons e es ih =>
    simp only [List.cons_append, runFrom]
    cases step s e with
    | none => rfl
    | some s' => exact ih s'

theorem step_totalAlloc (s s' : Analysis) (e : AllocEvent) (h : step s e = some s') :
    s'.totalAlloc % ullMod = (s.totalAlloc + allocatedSizes [e]) % ullMod ∧
      (s.totalAlloc < ullMod → s'.totalAlloc < ullMod) := by
  unfold step at h
  cases ht : e.type <;> simp only [ht] at h
  · cases h
    simp [allocatedSizes, ht, ullMod]
    omega
  · cases h
    simp [allocatedSizes, ht, ullMod]
    omega
  · cases hq : pqTop s.objectAllocs <;> simp only [hq] at h
    · cases h
    · cases h
      simp [allocatedSizes, ht]
  · cases hq : mmFind e.ptr s.allocated <;> simp only [hq] at h
    · cases h
    · cases h
      simp [allocatedSizes, ht]

theorem allocatedSizes_cons (e : AllocEvent) (es : List AllocEvent) :
    allocatedSizes (e :: es) = allocatedSizes [e] + allocatedSizes es := by
  simp only [allocatedSizes]
  split <;> simp

theorem runFrom_totalAlloc (log : List AllocEvent) :
    ∀ s s', runFrom s log = some s' →
      s'.totalAlloc % ullMod = (s.totalAlloc + allocatedSizes log) % ullMod ∧
        (s.totalAlloc < ullMod → s'.totalAlloc < ullMod) := by
  induction log with
  | nil =>
    intro s s' h
    simp only [runFrom, Option.some.injEq] at h
    subst h
    simp [allocatedSizes]
  | cons e es ih =>
    intro s s' h
    simp only [runFrom] at h
    cases hs : step s e with
    | none => simp [hs] at h
    | some s₁ =>
      simp only [hs] at h
      obtain ⟨h1, h2⟩ := step_totalAlloc s s₁ e hs
      obtain ⟨h3, h4⟩ := ih s₁ s' h
      refine ⟨?_, fun hlt => h4 (h2 hlt)⟩
      rw [allocatedSizes_cons, h3, Nat.add_mod, h1, ← Nat.add_mod, Nat.add_assoc]

theorem runEvents_totalAlloc (log : List AllocEvent) (s : Analysis)
    (h : runEvents log = some s) : s.totalAlloc = allocatedSizes log % ullMod := by
  obtain ⟨h1, h2⟩ := runFrom_totalAlloc log Analysis.init s h
  have h3 : s.totalAlloc < ullMod := h2 (by decide)
  rw [← Nat.mod_eq_of_lt h3, h1]
  simp [Analysis.init]

theorem allocatedSizes_news (allocs : List AllocEvent)
    (ha : ∀ e ∈ allocs, e.type = AllocType_New) :
    allocatedSizes allocs = (allocs.map AllocEvent.size).sum := by
  induction allocs with
  | nil => rfl
  | cons e es ih =>
    have he : e.type = AllocType_New := ha e (List.mem_cons_self e es)
    simp [allocatedSizes, he, ih (fun x hx => ha x (List.mem_cons_of_mem e hx))]

theorem runFrom_news (allocs : List AllocEvent) (ha : ∀ e ∈ allocs, e.type = AllocType_New) :
    ∀ s : Analysis, ∃ s', runFrom s allocs = some s' ∧ s'.totalDealloc = s.totalDealloc ∧
      s'.objectAllocs.Perm (allocs ++ s.objectAllocs) ∧
      s'.allocated = s.allocated ++ allocs.map (fun e => (e.ptr, e)) := by
  induction allocs with
  | nil => intro s; exact ⟨s, rfl, rfl, List.Perm.refl _, by simp⟩
  | cons e es ih =>
    intro s
    have he : e.type = AllocType_New := ha e (List.mem_cons_self e es)
    have hstep : step s e = some
        { s with
          totalAlloc := (s.totalAlloc + e.size) % ullMod
          objectAllocs := pqPush e s.objectAllocs
          allocated := mmInsert e.ptr e s.allocated } := by
      simp only [step, he]
    obtain ⟨s', h1, h2, h3, h4⟩ := ih (fun x hx => ha x (List.mem_cons_of_mem e hx))
      { s with
        totalAlloc := (s.totalAlloc + e.size) % ullMod
        objectAllocs := pqPush e s.objectAllocs
        allocated := mmInsert e.ptr e s.allocated }
    refine ⟨s', ?_, h2, ?_, ?_⟩
    · simp only [runFrom, hstep]; exact h1
    · refine h3.trans ?_
      simp only [List.cons_append]
      exact ((pqPush_perm e s.objectAllocs).append_left es).trans List.perm_middle
    · simp only [h4, mmInsert, List.map_cons, List.append_assoc, List.singleton_append]

theorem runFrom_deletes (frees : List AllocEvent)
    (hf : ∀ e ∈ frees, e.type = AllocType_Delete) :
    ∀ s : Analysis, frees.length = s.objectAllocs.length →
      (∀ p ∈ s.allocated, ∃ e ∈ s.objectAllocs, e.ptr = p.1) →
      ∃ s', runFrom s frees = some s' ∧ s'.totalAlloc = s.totalAlloc ∧
        s'.totalDealloc % ullMod
          = (s.totalDealloc + (s.objectAllocs.map AllocEvent.size).sum) % ullMod ∧
        (s.totalDealloc < ullMod → s'.totalDealloc < ullMod) ∧
        s'.allocated = [] ∧ s'.objectAllocs = [] := by
  induction frees with
  | nil =>
    intro s hlen hkeys
    have hq : s.objectAllocs = [] := List.length_eq_zero.mp hlen.symm
    refine ⟨s, rfl, rfl, by simp [hq], fun h => h, ?_, hq⟩
    apply List.eq_nil_iff_forall_not_mem.mpr
    intro p hp
    obtain ⟨e, he, -⟩ := hkeys p hp
    simp [hq] at he
  | cons f fs ih =>
    intro s hlen hkeys
    have hfd : f.type = AllocType_Delete := hf f (List.mem_cons_self f fs)
    cases hq : s.objectAllocs with
    | nil => simp [hq] at hlen
    | cons q₀ q =>
      have hstep : step s f = some
          { s with
            totalDealloc := (s.totalDealloc + q₀.size) % ullMod
            allocated := mmErase q₀.ptr s.allocated
            objectAllocs := q } := by
        simp only [step, hfd, hq, pqTop, pqPop]
      obtain ⟨s', h1, h2, h3, h4, h5, h6⟩ := ih (fun x hx => hf x (List.mem_cons_of_mem f hx))
        { s with
          totalDealloc := (s.totalDealloc + q₀.size) % ullMod
          allocated := mmErase q₀.ptr s.allocated
          objectAllocs := q }
        (by simpa [hq] using hlen)
        (by
          intro p hp
          simp only [mmErase_eq_filter, List.mem_filter, decide_eq_true_eq] at hp
          obtain ⟨e, he, hep⟩ := hkeys p hp.1
          rw [hq] at he
          rcases List.mem_cons.mp he with rfl | he
          · exact absurd hep.symm hp.2
          · exact ⟨e, he, hep⟩)
      refine ⟨s', ?_, h2, ?_, ?_, h5, h6⟩
      · simp only [runFrom, hstep]; exact h1
      · rw [h3]
        simp only [List.map_cons, List.sum_cons]
        rw [Nat.add_mod, Nat.mod_mod, ← Nat.add_mod, Nat.add_assoc]
      · intro _
        exact h4 (Nat.mod_lt _ (by decide))

/-! ## The entries of `allocated` and the leak lines -/

theorem mmErase_sublist (k : Nat) (m : List (Nat × AllocEvent)) : (mmErase k m).Sublist m := by
  rw [mmErase_eq_filter]
  exact List.filter_sublist m

theorem step_allocated_sublist (s s' : Analysis) (e : AllocEvent) (h : step s e = some s')
    (base : List (Nat × AllocEvent)) (hb : s.allocated.Sublist base) :
    s'.allocated.Sublist (base ++ allocEntries [e]) := by
  unfold step at h
  cases ht : e.type <;> simp only [ht] at h
  · cases h
    simpa [allocEntries, ht, mmInsert] using hb.append (List.Sublist.refl [(e.ptr, e)])
  · cases h
    simpa [allocEntries, ht, mmInsert] using hb.append (List.Sublist.refl [(e.ptr, e)])
  · cases hq : pqTop s.objectAllocs <;> simp only [hq] at h
    · cases h
    · cases h
      simpa [allocEntries, ht] using (mmErase_sublist _ _).trans hb
  · cases hq : mmFind e.ptr s.allocated <;> simp only [hq] at h
    · cases h
    · cases h
      simpa [allocEntries, ht] using (mmErase_sublist _ _).trans hb

theorem allocEntries_cons (e : AllocEvent) (es : List AllocEvent) :
    allocEntries (e :: es) = allocEntries [e] ++ allocEntries es := by
  simp only [allocEntries]
  split <;> simp

theorem runFrom_allocated_sublist (log : List AllocEvent) :
    ∀ (s s' : Analysis), runFrom s log = some s' →
      ∀ base : List (Nat × AllocEvent), s.allocated.Sublist base →
        s'.allocated.Sublist (base ++ allocEntries log) := by
  induction log with
  | nil =>
    intro s s' h base hb
    simp only [runFrom, Option.some.injEq] at h
    subst h
    simpa [allocEntries] using hb
  | cons e es ih =>
    intro s s' h base hb
    simp only [runFrom] at h
    cases hs : step s e with
    | none => simp [hs] at h
    | some s₁ =>
      simp only [hs] at h
      have := ih s₁ s' h _ (step_allocated_sublist s s₁ e hs base hb)
      rwa [allocEntries_cons, ← List.append_assoc]

theorem runEvents_allocated_sublist (log : List AllocEvent) (s : Analysis)
    (h : runEvents log = some s) : s.allocated.Sublist (allocEntries log) := by
  simpa [Analysis.init] using
    runFrom_allocated_sublist log Analysis.init s h [] (List.Sublist.refl _)

theorem mem_allocEntries (p : Nat × AllocEvent) (log : List AllocEvent) :
    p ∈ allocEntries log ↔
      p.2 ∈ log ∧ p.1 = p.2.ptr ∧ (p.2.type = AllocType_New ∨ p.2.type = AllocType_NewArray) := by
  induction log with
  | nil => simp [allocEntries]
  | cons e es ih =>
    obtain ⟨k, v⟩ := p
    by_cases he : e.type = AllocType_New ∨ e.type = AllocType_NewArray
    · simp only [allocEntries, he, if_true, List.mem_cons, ih, Prod.mk.injEq]
      constructor
      · rintro (⟨rfl, rfl⟩ | ⟨h1, h2, h3⟩)
        · exact ⟨Or.inl rfl, rfl, he⟩
        · exact ⟨Or.inr h1, h2, h3⟩
      · rintro ⟨h1 | h1, h2, h3⟩
        · subst h1; exact Or.inl ⟨h2, rfl⟩
        · exact Or.inr ⟨h1, h2, h3⟩
    · simp only [allocEntries, he, if_false, List.mem_cons, ih]
      constructor
      · rintro ⟨h1, h2, h3⟩
        exact ⟨Or.inr h1, h2, h3⟩
      · rintro ⟨h1 | h1, h2, h3⟩
        · subst h1; exact absurd h3 he
        · exact ⟨h1, h2, h3⟩

theorem runEvents_entry (log : List AllocEvent) (s : Analysis) (h : runEvents log = some s)
    (p : Nat × AllocEvent) (hp : p ∈ s.allocated) :
    p.2 ∈ log ∧ p.1 = p.2.ptr ∧ (p.2.type = AllocType_New ∨ p.2.type = AllocType_NewArray) :=
  (mem_allocEntries p log).mp ((runEvents_allocated_sublist log s h).subset hp)

theorem confirmedLoop_eq (m : List (Nat × AllocEvent)) :
    confirmedLoop m =
      (m.any isObjectEntry, (m.filter isArrayEntry).map (fun p => confirmedOf p.2)) := by
  induction m with
  | nil => rfl
  | cons p m ih =>
    obtain ⟨k, v⟩ := p
    cases ht : v.type <;>
      simp [confirmedLoop, ih, ht, isObjectEntry, isArrayEntry, confirmedOf]

theorem possibleLoop_eq (m : List (Nat × AllocEvent)) :
    possibleLoop m = (m.filter isObjectEntry).map (fun p => possibleOf p.2) := by
  induction m with
  | nil => rfl
  | cons p m ih =>
    obtain ⟨k, v⟩ := p
    cases ht : v.type <;> simp [possibleLoop, ih, ht, isObjectEntry, possibleOf]

theorem leakLines_eq (s : Analysis) :
    (report s).leakLines =
      (s.allocated.filter isArrayEntry).map (fun p => confirmedOf p.2) ++
        (s.allocated.filter isObjectEntry).map (fun p => possibleOf p.2) := by
  simp only [report, confirmedLoop_eq, possibleLoop_eq]
  cases h : s.allocated.any isObjectEntry
  · have : s.allocated.filter isObjectEntry = [] := by
      rw [List.filter_eq_nil_iff]
      intro p hp hobj
      have := List.any_eq_true.mpr ⟨p, hp, hobj⟩
      rw [h] at this
      cases this
    simp [this]
  · simp

theorem filter_isConfirmed_leakLines (s : Analysis) :
    (report s).leakLines.filter LeakLine.isConfirmed =
      (s.allocated.filter isArrayEntry).map (fun p => confirmedOf p.2) := by
  rw [leakLines_eq, List.filter_append]
  have h1 : ∀ l : List (Nat × AllocEvent),
      (l.map (fun p => confirmedOf p.2)).filter LeakLine.isConfirmed
        = l.map (fun p => confirmedOf p.2) := by
    intro l
    rw [List.filter_eq_self]
    intro x hx
    obtain ⟨p, -, rfl⟩ := List.mem_map.mp hx
    rfl
  have h2 : ∀ l : List (Nat × AllocEvent),
      (l.map (fun p => possibleOf p.2)).filter LeakLine.isConfirmed = [] := by
    intro l
    rw [List.filter_eq_nil_iff]
    intro x hx
    obtain ⟨p, -, rfl⟩ := List.mem_map.mp hx
    simp [possibleOf, LeakLine.isConfirmed]
  rw [h1, h2, List.append_nil]

theorem filter_not_isConfirmed_leakLines (s : Analysis) :
    (report s).leakLines.filter (fun l => !l.isConfirmed) =
      (s.allocated.filter isObjectEntry).map (fun p => possibleOf p.2) := by
  rw [leakLines_eq, List.filter_append]
  have h1 : ∀ l : List (Nat × AllocEvent),
      (l.map (fun p => possibleOf p.2)).filter (fun l => !l.isConfirmed)
        = l.map (fun p => possibleOf p.2) := by
    intro l
    rw [List.filter_eq_self]
    intro x hx
    obtain ⟨p, -, rfl⟩ := List.mem_map.mp hx
    rfl
  have h2 : ∀ l : List (Nat × AllocEvent),
      (l.map (fun p => confirmedOf p.2)).filter (fun l => !l.isConfirmed) = [] := by
    intro l
    rw [List.filter_eq_nil_iff]
    intro x hx
    obtain ⟨p, -, rfl⟩ := List.mem_map.mp hx
    simp [confirmedOf, LeakLine.isConfirmed]
  rw [h1, h2, List.nil_append]

theorem length_filter_entries (m : List (Nat × AllocEvent))
    (hm : ∀ p ∈ m, p.2.type = AllocType_New ∨ p.2.type = AllocType_NewArray) :
    (m.filter isArrayEntry).length + (m.filter isObjectEntry).length = m.length := by
  induction m with
  | nil => rfl
  | cons p m ih =>
    have ih' := ih (fun x hx => hm x (List.mem_cons_of_mem p hx))
    rcases hm p (List.mem_cons_self p m) with h | h
    · simp [List.filter_cons, isArrayEntry, isObjectEntry, h] at ih' ⊢
      omega
    · simp [List.filter_cons, isArrayEntry, isObjectEntry, h] at ih' ⊢
      omega

theorem step_eq_some (s s' : Analysis) (e : AllocEvent) (h : step s e = some s') :
    (e.type = AllocType_New ∧
        s' = { s with
                totalAlloc := (s.totalAlloc + e.size) % ullMod
                objectAllocs := pqPush e s.objectAllocs
                allocated := mmInsert e.ptr e s.allocated }) ∨
      (e.type = AllocType_NewArray ∧
        s' = { s with
                totalAlloc := (s.totalAlloc + e.size) % ullMod
                allocated := mmInsert e.ptr e s.allocated }) ∨
      (e.type = AllocType_Delete ∧ ∃ q₀ q, s.objectAllocs = q₀ :: q ∧
        s' = { s with
                totalDealloc := (s.totalDealloc + q₀.size) % ullMod
                allocated := mmErase q₀.ptr s.allocated
                objectAllocs := q }) ∨
      (e.type = AllocType_DeleteArray ∧ ∃ e₀, mmFind e.ptr s.allocated = some e₀ ∧
        s' = { s with
                totalDealloc := (s.totalDealloc + e₀.size) % ullMod
                allocated := mmErase e₀.ptr s.allocated }) := by
  unfold step at h
  cases ht : e.type <;> simp only [ht] at h
  · cases h; exact Or.inl ⟨rfl, rfl⟩
  · cases h; exact Or.inr (Or.inl ⟨rfl, rfl⟩)
  · cases hq : s.objectAllocs with
    | nil => simp [hq, pqTop] at h
    | cons q₀ q =>
      simp only [hq, pqTop, pqPop, Option.some.injEq] at h
      exact Or.inr (Or.inr (Or.inl ⟨rfl, q₀, q, rfl, h.symm⟩))
  · cases hq : mmFind e.ptr s.allocated with
    | none => simp [hq] at h
    | some e₀ =>
      simp only [hq, Option.some.injEq] at h
      exact Or.inr (Or.inr (Or.inr ⟨rfl, e₀, rfl, h.symm⟩))

theorem mmFind_mem (k : Nat) (e : AllocEvent) (m : List (Nat × AllocEvent))
    (h : mmFind k m = some e) : (k, e) ∈ m := by
  induction m with
  | nil => simp [mmFind] at h
  | cons p m ih =>
    obtain ⟨k', v⟩ := p
    by_cases hk : k' = k
    · simp only [mmFind, hk, if_true, Option.some.injEq] at h
      subst h; subst hk
      exact List.mem_cons_self _ _
    · simp only [mmFind, hk, if_false] at h
      exact List.mem_cons_of_mem _ (ih h)

theorem mmFind_eq_none (k : Nat) (m : List (Nat × AllocEvent)) :
    mmFind k m = none ↔ ∀ p ∈ m, p.1 ≠ k := by
  induction m with
  | nil => simp [mmFind]
  | cons p m ih =>
    obtain ⟨k', v⟩ := p
    by_cases hk : k' = k
    · simp [mmFind, hk]
    · simp [mmFind, hk, ih]

theorem objectKeys_allocEntries (l : List AllocEvent) :
    ((allocEntries l).filter isObjectEntry).map Prod.fst
      = (l.filter (fun e => decide (e.type = AllocType_New))).map AllocEvent.ptr := by
  induction l with
  | nil => rfl
  | cons e es ih =>
    cases ht : e.type <;> simp [allocEntries, ht, isObjectEntry, List.filter_cons, ih]

theorem exists_single_entry (k : Nat) (m : List (Nat × AllocEvent))
    (h : (m.filter (fun p => decide (p.1 = k))).length = 1) :
    ∃ e l₁ l₂, m = l₁ ++ (k, e) :: l₂ ∧ (∀ p ∈ l₁, p.1 ≠ k) ∧ (∀ p ∈ l₂, p.1 ≠ k) := by
  induction m with
  | nil => simp at h
  | cons p m ih =>
    obtain ⟨k', v⟩ := p
    by_cases hk : k' = k
    · subst hk
      simp only [List.filter_cons, decide_True, if_true, List.length_cons,
        Nat.add_left_eq_self, List.length_eq_zero, List.filter_eq_nil_iff,
        decide_eq_true_eq] at h
      exact ⟨v, [], m, rfl, by simp, h⟩
    · simp only [List.filter_cons, hk, decide_False, Bool.false_eq_true, if_false] at h
      obtain ⟨e, l₁, l₂, rfl, h1, h2⟩ := ih h
      refine ⟨e, (k', v) :: l₁, l₂, rfl, ?_, h2⟩
      intro p hp
      rcases List.mem_cons.mp hp with rfl | hp
      · exact hk
      · exact h1 p hp

theorem mmFind_split (k : Nat) (e : AllocEvent) (l₁ l₂ : List (Nat × AllocEvent))
    (h1 : ∀ p ∈ l₁, p.1 ≠ k) : mmFind k (l₁ ++ (k, e) :: l₂) = some e := by
  induction l₁ with
  | nil => simp [mmFind]
  | cons p l ih =>
    obtain ⟨k', v⟩ := p
    have hk : k' ≠ k := h1 (k', v) (List.mem_cons_self _ _)
    simp only [List.cons_append, mmFind, hk, if_false]
    exact ih (fun p hp => h1 p (List.mem_cons_of_mem _ hp))

theorem mmErase_split (k : Nat) (e : AllocEvent) (l₁ l₂ : List (Nat × AllocEvent))
    (h1 : ∀ p ∈ l₁, p.1 ≠ k) (h2 : ∀ p ∈ l₂, p.1 ≠ k) :
    mmErase k (l₁ ++ (k, e) :: l₂) = l₁ ++ l₂ := by
  have e1 : l₁.filter (fun p => decide (p.1 ≠ k)) = l₁ :=
    List.filter_eq_self.mpr (fun p hp => by simpa using h1 p hp)
  have e2 : l₂.filter (fun p => decide (p.1 ≠ k)) = l₂ :=
    List.filter_eq_self.mpr (fun p hp => by simpa using h2 p hp)
  rw [mmErase_eq_filter, List.filter_append, List.filter_cons, e1, e2]
  simp

theorem step_arrayInv (P : Nat → Prop) (s s' : Analysis) (e : AllocEvent)
    (h : step s e = some s')
    (hq : ∀ q ∈ s.objectAllocs, ¬ P q.ptr) (hk : ∀ p ∈ s.allocated, p.1 = p.2.ptr)
    (ha : ∀ p ∈ s.allocated, isArrayEntry p = true → P p.1)
    (hn : e.type = AllocType_New → ¬ P e.ptr) (hna : e.type = AllocType_NewArray → P e.ptr) :
    (∀ q ∈ s'.objectAllocs, ¬ P q.ptr) ∧ (∀ p ∈ s'.allocated, p.1 = p.2.ptr) ∧
      (∀ p ∈ s'.allocated, isArrayEntry p = true → P p.1) := by
  rcases step_eq_some s s' e h with ⟨ht, rfl⟩ | ⟨ht, rfl⟩ | ⟨ht, q₀, q, hqq, rfl⟩ |
    ⟨ht, e₀, hf, rfl⟩
  · refine ⟨?_, ?_, ?_⟩
    · intro x hx
      rcases (mem_pqPush x e s.objectAllocs).mp hx with rfl | hx
      · exact hn ht
      · exact hq x hx
    · intro p hp
      rcases List.mem_append.mp hp with hp | hp
      · exact hk p hp
      · simp only [List.mem_singleton] at hp; subst hp; rfl
    · intro p hp harr
      rcases List.mem_append.mp hp with hp | hp
      · exact ha p hp harr
      · simp only [List.mem_singleton] at hp; subst hp
        simp [isArrayEntry, ht] at harr
  · refine ⟨hq, ?_, ?_⟩
    · intro p hp
      rcases List.mem_append.mp hp with hp | hp
      · exact hk p hp
      · simp only [List.mem_singleton] at hp; subst hp; rfl
    · intro p hp harr
      rcases List.mem_append.mp hp with hp | hp
      · exact ha p hp harr
      · simp only [List.mem_singleton] at hp; subst hp
        exact hna ht
  · refine ⟨fun x hx => hq x (by rw [hqq]; exact List.mem_cons_of_mem _ hx), ?_, ?_⟩
    · intro p hp
      exact hk p ((mmErase_sublist _ _).subset hp)
    · intro p hp harr
      exact ha p ((mmErase_sublist _ _).subset hp) harr
  · refine ⟨hq, ?_, ?_⟩
    · intro p hp
      exact hk p ((mmErase_sublist _ _).subset hp)
    · intro p hp harr
      exact ha p ((mmErase_sublist _ _).subset hp) harr

theorem step_arrays (P : Nat → Prop) (s s' : Analysis) (e : AllocEvent)
    (h : step s e = some s')
    (hq : ∀ q ∈ s.objectAllocs, ¬ P q.ptr) (hk : ∀ p ∈ s.allocated, p.1 = p.2.ptr)
    (ha : ∀ p ∈ s.allocated, isArrayEntry p = true → P p.1) :
    s'.allocated.filter isArrayEntry =
      (s.allocated.filter isArrayEntry).filter (fun p => !hasArrayFree p.1 [e])
        ++ (unfreedArrays [e]).map (fun x => (x.ptr, x)) := by
  rcases step_eq_some s s' e h with ⟨ht, rfl⟩ | ⟨ht, rfl⟩ | ⟨ht, q₀, q, hqq, rfl⟩ |
    ⟨ht, e₀, hf, rfl⟩
  · have hx : isArrayEntry (e.ptr, e) = false := by simp [isArrayEntry, ht]
    have hu : unfreedArrays [e] = [] := by simp [unfreedArrays, ht]
    have hh : ∀ k, hasArrayFree k [e] = false := by intro k; simp [hasArrayFree, ht]
    simp [mmInsert, List.filter_append, List.filter_cons, hx, hu, hh]
  · have hx : isArrayEntry (e.ptr, e) = true := by simp [isArrayEntry, ht]
    have hu : unfreedArrays [e] = [e] := by simp [unfreedArrays, ht, hasArrayFree]
    have hh : ∀ k, hasArrayFree k [e] = false := by intro k; simp [hasArrayFree, ht]
    simp [mmInsert, List.filter_append, List.filter_cons, hx, hu, hh]
  · have hq₀ : ¬ P q₀.ptr := hq q₀ (by rw [hqq]; exact List.mem_cons_self _ _)
    have hu : unfreedArrays [e] = [] := by simp [unfreedArrays, ht]
    have hh : ∀ k, hasArrayFree k [e] = false := by intro k; simp [hasArrayFree, ht]
    simp only [hu, hh, mmErase_eq_filter, List.filter_filter, List.map_nil, List.append_nil]
    apply List.filter_congr
    intro p hp
    by_cases harr : isArrayEntry p = true
    · have : p.1 ≠ q₀.ptr := fun hh => hq₀ (hh ▸ ha p hp harr)
      simp [harr, this]
    · simp [harr]
  · have hptr : e.ptr = e₀.ptr := hk (e.ptr, e₀) (mmFind_mem _ _ _ hf)
    have hu : unfreedArrays [e] = [] := by simp [unfreedArrays, ht]
    have hh : ∀ k, hasArrayFree k [e] = decide (e₀.ptr = k) := by
      intro k; simp [hasArrayFree, ht, hptr]
    simp only [hu, hh, mmErase_eq_filter, List.filter_filter, List.map_nil, List.append_nil]
    apply List.filter_congr
    intro p hp
    by_cases harr : isArrayEntry p = true
    · by_cases hpk : p.1 = e₀.ptr
      · simp [harr, hpk]
      · have : ¬ e₀.ptr = p.1 := fun hh => hpk hh.symm
        simp [harr, hpk, this]
    · simp [harr]

theorem unfreedArrays_cons (e : AllocEvent) (es : List AllocEvent) :
    (unfreedArrays (e :: es)).map (fun x => (x.ptr, x)) =
      ((unfreedArrays [e]).map (fun x => (x.ptr, x))).filter (fun p => !hasArrayFree p.1 es)
        ++ (unfreedArrays es).map (fun x => (x.ptr, x)) := by
  by_cases ht : e.type = AllocType_NewArray
  · have hnil : hasArrayFree e.ptr [] = false := rfl
    cases hf : hasArrayFree e.ptr es <;>
      simp [unfreedArrays, ht, hf, hnil, List.filter_cons]
  · simp [unfreedArrays, ht]

theorem runFrom_arrays (P : Nat → Prop) (log : List AllocEvent) :
    ∀ s s' : Analysis, runFrom s log = some s' →
      (∀ q ∈ s.objectAllocs, ¬ P q.ptr) → (∀ p ∈ s.allocated, p.1 = p.2.ptr) →
      (∀ p ∈ s.allocated, isArrayEntry p = true → P p.1) →
      (∀ e ∈ log, e.type = AllocType_New → ¬ P e.ptr) →
      (∀ e ∈ log, e.type = AllocType_NewArray → P e.ptr) →
      s'.allocated.filter isArrayEntry =
        (s.allocated.filter isArrayEntry).filter (fun p => !hasArrayFree p.1 log)
          ++ (unfreedArrays log).map (fun x => (x.ptr, x)) := by
  induction log with
  | nil =>
    intro s s' h _ _ _ _ _
    simp only [runFrom, Option.some.injEq] at h
    subst h
    simp [hasArrayFree, unfreedArrays]
  | cons e es ih =>
    intro s s' h hq hk ha hn hna
    simp only [runFrom] at h
    cases hs : step s e with
    | none => simp [hs] at h
    | some s₁ =>
      simp only [hs] at h
      obtain ⟨hq₁, hk₁, ha₁⟩ := step_arrayInv P s s₁ e hs hq hk ha
        (hn e (List.mem_cons_self _ _)) (hna e (List.mem_cons_self _ _))
      have h1 := ih s₁ s' h hq₁ hk₁ ha₁ (fun x hx => hn x (List.mem_cons_of_mem _ hx))
        (fun x hx => hna x (List.mem_cons_of_mem _ hx))
      have h2 := step_arrays P s s₁ e hs hq hk ha
      have h3 := unfreedArrays_cons e es
      rw [h1, h2, h3, List.filter_append, List.filter_filter, List.append_assoc]
      congr 2
      funext p
      simp [hasArrayFree, Bool.and_comm]

theorem runFrom_arrayInv (P : Nat → Prop) (log : List AllocEvent) :
    ∀ s s' : Analysis, runFrom s log = some s' →
      (∀ q ∈ s.objectAllocs, ¬ P q.ptr) → (∀ p ∈ s.allocated, p.1 = p.2.ptr) →
      (∀ p ∈ s.allocated, isArrayEntry p = true → P p.1) →
      (∀ e ∈ log, e.type = AllocType_New → ¬ P e.ptr) →
      (∀ e ∈ log, e.type = AllocType_NewArray → P e.ptr) →
      (∀ q ∈ s'.objectAllocs, ¬ P q.ptr) ∧ (∀ p ∈ s'.allocated, p.1 = p.2.ptr) ∧
        (∀ p ∈ s'.allocated, isArrayEntry p = true → P p.1) := by
  induction log with
  | nil =>
    intro s s' h hq hk ha _ _
    simp only [runFrom, Option.some.injEq] at h
    subst h
    exact ⟨hq, hk, ha⟩
  | cons e es ih =>
    intro s s' h hq hk ha hn hna
    simp only [runFrom] at h
    cases hs : step s e with
    | none => simp [hs] at h
    | some s₁ =>
      simp only [hs] at h
      obtain ⟨hq₁, hk₁, ha₁⟩ := step_arrayInv P s s₁ e hs hq hk ha
        (hn e (List.mem_cons_self _ _)) (hna e (List.mem_cons_self _ _))
      exact ih s₁ s' h hq₁ hk₁ ha₁ (fun x hx => hn x (List.mem_cons_of_mem _ hx))
        (fun x hx => hna x (List.mem_cons_of_mem _ hx))

theorem step_delete_arrays (P : Nat → Prop) (s s' : Analysis) (f : AllocEvent)
    (ht : f.type = AllocType_Delete) (h : step s f = some s')
    (hq : ∀ q ∈ s.objectAllocs, ¬ P q.ptr) (hk : ∀ p ∈ s.allocated, p.1 = p.2.ptr)
    (ha : ∀ p ∈ s.allocated, isArrayEntry p = true → P p.1) :
    s'.allocated.filter isArrayEntry = s.allocated.filter isArrayEntry := by
  have hu : unfreedArrays [f] = [] := by simp [unfreedArrays, ht]
  have hh : ∀ k, hasArrayFree k [f] = false := by intro k; simp [hasArrayFree, ht]
  rw [step_arrays P s s' f h hq hk ha, hu]
  simp [hh]

theorem step_delete_empty (s : Analysis) (event : AllocEvent)
    (ht : event.type = AllocType_Delete) (hq : s.objectAllocs = []) : step s event = none := by
  simp [step, ht, hq, pqTop]

theorem step_deleteArray_unknown (s : Analysis) (event : AllocEvent)
    (ht : event.type = AllocType_DeleteArray) (hk : ∀ p ∈ s.allocated, p.1 ≠ event.ptr) :
    step s event = none := by
  simp [step, ht, (mmFind_eq_none event.ptr s.allocated).mpr hk]

/-! ## The size heuristic on two objects (C1, C2) -/

/-- C1, as the code has it: with one `new` of 100 bytes and one of 50 bytes at distinct
addresses, in either order, followed by one `delete`, the pass attributes the `delete` to the
50-byte object, the smallest pending one: the deallocated total is 50 and `allocated` keeps
exactly the 100-byte object, which is the one printed as possible leaked object. -/
theorem scalarFree_takes_smallest (a b f : AllocEvent)
    (ha : a.type = AllocType_New) (hb : b.type = AllocType_New) (hf : f.type = AllocType_Delete)
    (hsa : a.size = 100) (hsb : b.size = 50) (hne : a.ptr ≠ b.ptr)
    (log : List AllocEvent) (hlog : log = [a, b, f] ∨ log = [b, a, f]) :
    ∃ s, runEvents log = some s ∧ s.totalDealloc = 50 ∧ s.allocated = [(a.ptr, a)] ∧
      (report s).leakLines = [LeakLine.possibleLeakedObject 100 a.func a.file a.line] := by
  have hne' : b.ptr ≠ a.ptr := fun h => hne h.symm
  rcases hlog with rfl | rfl
  · simp [runEvents, runFrom, step, ha, hb, hf, pqPush, pqTop, pqPop, AllocSizeCompare, hsa, hsb,
      mmInsert, mmErase, hne, hne', report, confirmedLoop, possibleLoop, Analysis.init, ullMod]
  · simp [runEvents, runFrom, step, ha, hb, hf, pqPush, pqTop, pqPop, AllocSizeCompare, hsa, hsb,
      mmInsert, mmErase, hne, hne', report, confirmedLoop, possibleLoop, Analysis.init, ullMod]

/-- The theorem `scalarFree_takes_smallest` at a concrete log. -/
theorem scalarFree_takes_smallest_witness :
    ∃ s, runEvents [sampleNew 50 2, sampleNew 100 1, sampleDelete] = some s ∧
      s.totalDealloc = 50 ∧ s.allocated = [(1, sampleNew 100 1)] ∧
      (report s).leakLines = [LeakLine.possibleLeakedObject 100 "main" "main.cpp" 10] :=
  scalarFree_takes_smallest (sampleNew 100 1) (sampleNew 50 2) sampleDelete rfl rfl rfl rfl rfl
    (by decide) _ (Or.inr rfl)

/-- C1 as stated fails: on `new` 100 bytes at address 1, `new` 50 bytes at address 2, `delete`,
the pass ends with a deallocated total of 50 and keeps the 100-byte object; it does not end
with a deallocated total of 100 and the 50-byte object. -/
theorem scalarFree_not_largest :
    runEvents [sampleNew 100 1, sampleNew 50 2, sampleDelete]
        = some { totalAlloc := 150, totalDealloc := 50, objectAllocs := [sampleNew 100 1],
                 allocated := [(1, sampleNew 100 1)] } ∧
      ¬ ∃ s, runEvents [sampleNew 100 1, sampleNew 50 2, sampleDelete] = some s ∧
          s.totalDealloc = 100 ∧ s.allocated = [(2, sampleNew 50 2)] := by
  decide

/-- C2, as the code has it: on `new` 10 at A, `new` 20 at B, `new[]` 30 at C, `delete`,
`delete[]` C with A, B, C pairwise distinct, the report has 60 bytes allocated, 10 + 30 = 40
bytes deallocated, 20 bytes leaked, a leaked count of 1 and exactly one leak line, the
"Possible leaked object" line of size 20 with the call site recorded for B. -/
theorem scenario_report (a b c f g : AllocEvent)
    (ha : a.type = AllocType_New) (hb : b.type = AllocType_New)
    (hc : c.type = AllocType_NewArray) (hf : f.type = AllocType_Delete)
    (hg : g.type = AllocType_DeleteArray)
    (hsa : a.size = 10) (hsb : b.size = 20) (hsc : c.size = 30) (hgc : g.ptr = c.ptr)
    (hab : a.ptr ≠ b.ptr) (hac : a.ptr ≠ c.ptr) (hbc : b.ptr ≠ c.ptr) :
    analysis [a, b, c, f, g] =
      some { totalAllocated := 60, totalDeallocated := 40, totalLeakedSize := 20,
             totalLeakedCount := 1,
             leakLines := [LeakLine.possibleLeakedObject 20 b.func b.file b.line] } := by
  have hba : b.ptr ≠ a.ptr := fun h => hab h.symm
  have hca : c.ptr ≠ a.ptr := fun h => hac h.symm
  have hcb : c.ptr ≠ b.ptr := fun h => hbc h.symm
  have h1 : runFrom Analysis.init [a, b, c] = some
      { totalAlloc := 60, totalDealloc := 0, objectAllocs := [a, b],
        allocated := [(a.ptr, a), (b.ptr, b), (c.ptr, c)] } := by
    simp [runFrom, step, ha, hb, hc, pqPush, AllocSizeCompare, hsa, hsb, hsc, mmInsert,
      Analysis.init, ullMod]
  have h2 : runFrom
      { totalAlloc := 60, totalDealloc := 0, objectAllocs := [a, b],
        allocated := [(a.ptr, a), (b.ptr, b), (c.ptr, c)] } [f, g] = some
      { totalAlloc := 60, totalDealloc := 40, objectAllocs := [b],
        allocated := [(b.ptr, b)] } := by
    simp [runFrom, step, hf, hg, pqTop, pqPop, hsa, hsc, hgc, mmErase, mmFind, hab, hac, hbc,
      hba, hca, hcb, ullMod]
  have h3 : runEvents [a, b, c, f, g] = some
      { totalAlloc := 60, totalDealloc := 40, objectAllocs := [b],
        allocated := [(b.ptr, b)] } := by
    have := runFrom_append Analysis.init [a, b, c] [f, g]
    simp only [List.cons_append, List.nil_append] at this
    rw [runEvents, this, h1]
    exact h2
  have hleak : (60 + ullMod - 40) % ullMod = 20 := by decide
  simp [analysis, h3, report, confirmedLoop, possibleLoop, hb, hsb, hleak]

/-- The theorem `scenario_report` at a concrete log, A = 1, B = 2, C = 3. -/
theorem scenario_report_witness :
    analysis [sampleNew 10 1, sampleNew 20 2, sampleNewArray 30 3, sampleDelete,
        sampleDeleteArray 3] =
      some { totalAllocated := 60, totalDeallocated := 40, totalLeakedSize := 20,
             totalLeakedCount := 1,
             leakLines := [LeakLine.possibleLeakedObject 20 "main" "main.cpp" 10] } :=
  scenario_report (sampleNew 10 1) (sampleNew 20 2) (sampleNewArray 30 3) sampleDelete
    (sampleDeleteArray 3) rfl rfl rfl rfl rfl rfl rfl rfl rfl (by decide) (by decide) (by decide)

/-- C2 as stated fails: at A = 1, B = 2, C = 3 the report has 40 bytes deallocated and 20 bytes
leaked, not 50 and 10, and its one leak line has size 20, not 10. -/
theorem scenario_not_as_stated :
    analysis [sampleNew 10 1, sampleNew 20 2, sampleNewArray 30 3, sampleDelete,
        sampleDeleteArray 3] ≠
      some { totalAllocated := 60, totalDeallocated := 50, totalLeakedSize := 10,
             totalLeakedCount := 1,
             leakLines := [LeakLine.possibleLeakedObject 10 "main" "main.cpp" 10] } := by
  decide

/-! ## Matched object allocations (C3) -/

/-- C3: a log of N `new` events (any sizes, any addresses) followed by exactly N `delete`
events runs to the end; the deallocated total equals the allocated total, `allocated` is
empty, and the report shows 0 leaked bytes, a leaked count of 0 and no leak line. -/
theorem news_then_deletes_balance (allocs frees : List AllocEvent)
    (ha : ∀ e ∈ allocs, e.type = AllocType_New) (hf : ∀ e ∈ frees, e.type = AllocType_Delete)
    (hlen : frees.length = allocs.length) :
    ∃ s, runEvents (allocs ++ frees) = some s ∧ s.totalDealloc = s.totalAlloc ∧
      s.allocated = [] ∧
      analysis (allocs ++ frees) =
        some { totalAllocated := allocatedSizes allocs % ullMod,
               totalDeallocated := allocatedSizes allocs % ullMod,
               totalLeakedSize := 0, totalLeakedCount := 0, leakLines := [] } := by
  obtain ⟨s₁, h1, h2, h3, h4⟩ := runFrom_news allocs ha Analysis.init
  obtain ⟨s₂, k1, k2, k3, k4, k5, k6⟩ := runFrom_deletes frees hf s₁
    (by rw [hlen, h3.length_eq]; simp [Analysis.init])
    (by
      intro p hp
      rw [h4] at hp
      simp only [Analysis.init, List.nil_append, List.mem_map] at hp
      obtain ⟨e, he, rfl⟩ := hp
      exact ⟨e, h3.symm.subset (by simpa [Analysis.init] using he), rfl⟩)
  have hrun : runEvents (allocs ++ frees) = some s₂ := by
    rw [runEvents, runFrom_append, h1]; exact k1
  have htot : s₁.totalAlloc = allocatedSizes allocs % ullMod := runEvents_totalAlloc allocs s₁ h1
  have hd : s₂.totalDealloc = allocatedSizes allocs % ullMod := by
    have hlt : s₂.totalDealloc < ullMod := k4 (by rw [h2]; decide)
    rw [← Nat.mod_eq_of_lt hlt, k3, h2, (h3.map AllocEvent.size).sum_eq,
      allocatedSizes_news allocs ha]
    simp [Analysis.init]
  have hzero : (allocatedSizes allocs % ullMod + ullMod - allocatedSizes allocs % ullMod) % ullMod
      = 0 := by
    rw [Nat.add_sub_cancel_left, Nat.mod_self]
  refine ⟨s₂, hrun, by rw [hd, k2, htot], k5, ?_⟩
  simp only [analysis, hrun, Option.map_some', report, k5, k2, htot, hd, hzero, confirmedLoop,
    possibleLoop, List.length_nil, List.append_nil]
  rfl

/-- The theorem `news_then_deletes_balance` at two objects of equal size and two deletes. -/
theorem news_then_deletes_balance_witness :
    (∀ e ∈ [sampleNew 7 1, sampleNew 7 2], e.type = AllocType_New) ∧
      (∀ e ∈ [sampleDelete, sampleDelete], e.type = AllocType_Delete) ∧
      ∃ s, runEvents ([sampleNew 7 1, sampleNew 7 2] ++ [sampleDelete, sampleDelete]) = some s ∧
        s.totalDealloc = s.totalAlloc ∧ s.allocated = [] ∧
        analysis ([sampleNew 7 1, sampleNew 7 2] ++ [sampleDelete, sampleDelete]) =
          some { totalAllocated := allocatedSizes [sampleNew 7 1, sampleNew 7 2] % ullMod,
                 totalDeallocated := allocatedSizes [sampleNew 7 1, sampleNew 7 2] % ullMod,
                 totalLeakedSize := 0, totalLeakedCount := 0, leakLines := [] } :=
  ⟨by decide, by decide,
    news_then_deletes_balance [sampleNew 7 1, sampleNew 7 2] [sampleDelete, sampleDelete]
      (by decide) (by decide) rfl⟩

/-! ## Arrays left without a `delete[]` (C4) -/

/-- C4, as the code has it: when the pass completes on a log in which no `new` event has the
address of a `new[]` event, the array entries left in `allocated` are exactly the `new[]`
events that no later `delete[]` event with the same address follows, each once, and the
"Confirmed leaked array" lines are the lines of these events (size, function, file, line);
on such a log a `delete` step never changes the array entries of `allocated`. -/
theorem unfreed_arrays_confirmed (log : List AllocEvent) (s : Analysis)
    (h : runEvents log = some s)
    (hdisj : ∀ x ∈ log, ∀ y ∈ log, x.type = AllocType_New → y.type = AllocType_NewArray →
      x.ptr ≠ y.ptr) :
    s.allocated.filter isArrayEntry = (unfreedArrays log).map (fun x => (x.ptr, x)) ∧
      (report s).leakLines.filter LeakLine.isConfirmed
        = (unfreedArrays log).map confirmedOf ∧
      ∀ (n : Nat) (f : AllocEvent) (s₁ s₂ : Analysis), runEvents (log.take n) = some s₁ →
        f.type = AllocType_Delete → step s₁ f = some s₂ →
        s₂.allocated.filter isArrayEntry = s₁.allocated.filter isArrayEntry := by
  have hn : ∀ x ∈ log, x.type = AllocType_New →
      ¬ ∃ y ∈ log, y.type = AllocType_NewArray ∧ y.ptr = x.ptr :=
    fun x hx hxt ⟨y, hy, hyt, hyx⟩ => hdisj x hx y hy hxt hyt hyx.symm
  have hna : ∀ x ∈ log, x.type = AllocType_NewArray →
      ∃ y ∈ log, y.type = AllocType_NewArray ∧ y.ptr = x.ptr :=
    fun y hy hyt => ⟨y, hy, hyt, rfl⟩
  have key := runFrom_arrays (fun k => ∃ y ∈ log, y.type = AllocType_NewArray ∧ y.ptr = k) log
    Analysis.init s h (by simp [Analysis.init]) (by simp [Analysis.init])
    (by simp [Analysis.init]) hn hna
  simp only [Analysis.init, List.filter_nil, List.nil_append] at key
  refine ⟨key, ?_, ?_⟩
  · rw [filter_isConfirmed_leakLines, key, List.map_map]
    rfl
  · intro n f s₁ s₂ h₁ hf hstep
    obtain ⟨hq, hk, ha⟩ := runFrom_arrayInv
      (fun k => ∃ y ∈ log, y.type = AllocType_NewArray ∧ y.ptr = k) (log.take n)
      Analysis.init s₁ h₁ (by simp [Analysis.init]) (by simp [Analysis.init])
      (by simp [Analysis.init]) (fun x hx => hn x (List.mem_of_mem_take hx))
      (fun x hx => hna x (List.mem_of_mem_take hx))
    exact step_delete_arrays (fun k => ∃ y ∈ log, y.type = AllocType_NewArray ∧ y.ptr = k)
      s₁ s₂ f hf hstep hq hk ha

/-- The theorem `unfreed_arrays_confirmed` at a log with one object, one freed array and one
array that is never freed. -/
theorem unfreed_arrays_confirmed_witness :
    runEvents [sampleNew 10 1, sampleNewArray 30 3, sampleNewArray 8 4, sampleDelete,
        sampleDeleteArray 3] =
      some { totalAlloc := 48, totalDealloc := 40, objectAllocs := [],
             allocated := [(4, sampleNewArray 8 4)] } ∧
    [(4, sampleNewArray 8 4)].filter isArrayEntry =
      (unfreedArrays [sampleNew 10 1, sampleNewArray 30 3, sampleNewArray 8 4, sampleDelete,
        sampleDeleteArray 3]).map (fun x => (x.ptr, x)) ∧
    (report { totalAlloc := 48, totalDealloc := 40, objectAllocs := [],
              allocated := [(4, sampleNewArray 8 4)] }).leakLines.filter LeakLine.isConfirmed =
      (unfreedArrays [sampleNew 10 1, sampleNewArray 30 3, sampleNewArray 8 4, sampleDelete,
        sampleDeleteArray 3]).map confirmedOf :=
  ⟨by decide,
    (unfreed_arrays_confirmed [sampleNew 10 1, sampleNewArray 30 3, sampleNewArray 8 4,
        sampleDelete, sampleDeleteArray 3]
      { totalAlloc := 48, totalDealloc := 40, objectAllocs := [],
        allocated := [(4, sampleNewArray 8 4)] } (by decide) (by decide)).1,
    (unfreed_arrays_confirmed [sampleNew 10 1, sampleNewArray 30 3, sampleNewArray 8 4,
        sampleDelete, sampleDeleteArray 3]
      { totalAlloc := 48, totalDealloc := 40, objectAllocs := [],
        allocated := [(4, sampleNewArray 8 4)] } (by decide) (by decide)).2.1⟩

/-- C4 as stated fails: on `new` 10 at 1, `new` 5 at 2, `delete`, `new[]` 20 at 1, `delete`
the pass completes, the `new[]` event is followed by no `delete[]` event, and yet the report
has a leaked count of 0 and no "Confirmed leaked array" line: the second `delete` step took
the 10-byte object at address 1 from the queue and erased every entry stored under address 1,
the array entry included. -/
theorem scalarFree_drops_array_entry :
    analysis [sampleNew 10 1, sampleNew 5 2, sampleDelete, sampleNewArray 20 1, sampleDelete] =
      some { totalAllocated := 35, totalDeallocated := 15, totalLeakedSize := 20,
             totalLeakedCount := 0, leakLines := [] } ∧
    unfreedArrays [sampleNew 10 1, sampleNew 5 2, sampleDelete, sampleNewArray 20 1,
        sampleDelete] = [sampleNewArray 20 1] ∧
    step { totalAlloc := 35, totalDealloc := 5, objectAllocs := [sampleNew 10 1],
           allocated := [(1, sampleNew 10 1), (1, sampleNewArray 20 1)] } sampleDelete =
      some { totalAlloc := 35, totalDealloc := 15, objectAllocs := [], allocated := [] } := by
  decide

/-! ## Frees that match nothing (C5, C6) -/

/-- C5 on the code: a `delete` event met while `objectAllocs` is empty is not skipped. The
branch reads `objectAllocs.top()` of the empty queue, which the embedding renders as a failed
step: the pass fails on the log of one `delete` event, and on `new`, `delete`, `delete`. -/
theorem scalarFree_on_empty_queue :
    step Analysis.init sampleDelete = none ∧ analysis [sampleDelete] = none ∧
      analysis [sampleNew 8 1, sampleDelete, sampleDelete] = none := by
  decide

/-- C6 on the code: a `delete[]` event whose address is no key of `allocated` is not skipped.
The branch reads `allocated.find(event.ptr)->second` at `end()`, which the embedding renders
as a failed step: the pass fails on the log of one `delete[]` event at address 7, and on
`new[]` at address 1 followed by `delete[]` at address 7. -/
theorem arrayFree_of_unknown_address :
    step Analysis.init (sampleDeleteArray 7) = none ∧ analysis [sampleDeleteArray 7] = none ∧
      analysis [sampleNewArray 8 1, sampleDeleteArray 7] = none := by
  decide

/-! ## The allocated total (C7) -/

/-- C7: when the pass completes, the allocated total of the report is the sum of the sizes
of all `new` and `new[]` events of the log modulo `2 ^ 64`, whatever `delete` and `delete[]`
events the log holds and wherever they stand. -/
theorem totalAllocated_is_sum (log : List AllocEvent) (r : Report)
    (h : analysis log = some r) : r.totalAllocated = allocatedSizes log % ullMod := by
  simp only [analysis, Option.map_eq_some'] at h
  obtain ⟨s, hs, rfl⟩ := h
  exact runEvents_totalAlloc log s hs

/-- The theorem `totalAllocated_is_sum` at a log with frees between the allocations. -/
theorem totalAllocated_is_sum_witness :
    analysis [sampleNew 10 1, sampleDelete, sampleNewArray 30 3, sampleDeleteArray 3,
        sampleNew 5 1] =
      some { totalAllocated := 45, totalDeallocated := 40, totalLeakedSize := 5,
             totalLeakedCount := 1,
             leakLines := [LeakLine.possibleLeakedObject 5 "main" "main.cpp" 10] } ∧
    (45 : Nat) = allocatedSizes [sampleNew 10 1, sampleDelete, sampleNewArray 30 3,
        sampleDeleteArray 3, sampleNew 5 1] % ullMod :=
  ⟨by decide,
    totalAllocated_is_sum [sampleNew 10 1, sampleDelete, sampleNewArray 30 3,
        sampleDeleteArray 3, sampleNew 5 1]
      { totalAllocated := 45, totalDeallocated := 40, totalLeakedSize := 5,
        totalLeakedCount := 1,
        leakLines := [LeakLine.possibleLeakedObject 5 "main" "main.cpp" 10] } (by decide)⟩

/-! ## A `delete[]` that matches (C8) -/

/-- C8, as the code has it: in a state the pass reaches, for a `delete[]` event whose address
is the key of exactly one entry of `allocated`, the step adds the size of that entry to the
deallocated total and removes exactly that entry; `allocated` shrinks by one, every other
entry stays, in place, and the queue and the allocated total are unchanged. -/
theorem arrayFree_removes_single_entry (log : List AllocEvent) (s : Analysis)
    (hrun : runEvents log = some s) (event : AllocEvent)
    (ht : event.type = AllocType_DeleteArray)
    (hone : (s.allocated.filter (fun p => decide (p.1 = event.ptr))).length = 1) :
    ∃ e l₁ l₂, s.allocated = l₁ ++ (event.ptr, e) :: l₂ ∧
      (∀ p ∈ l₁ ++ l₂, p.1 ≠ event.ptr) ∧
      step s event = some
        { totalAlloc := s.totalAlloc
          totalDealloc := (s.totalDealloc + e.size) % ullMod
          objectAllocs := s.objectAllocs
          allocated := l₁ ++ l₂ } ∧
      (l₁ ++ l₂).length + 1 = s.allocated.length := by
  obtain ⟨e, l₁, l₂, hsplit, h1, h2⟩ := exists_single_entry event.ptr s.allocated hone
  have hptr : event.ptr = e.ptr :=
    (runEvents_entry log s hrun (event.ptr, e) (by rw [hsplit]; simp)).2.1
  refine ⟨e, l₁, l₂, hsplit, ?_, ?_, by rw [hsplit]; simp; omega⟩
  · intro p hp
    rcases List.mem_append.mp hp with hp | hp
    · exact h1 p hp
    · exact h2 p hp
  · have hfind : mmFind event.ptr s.allocated = some e := by
      rw [hsplit]; exact mmFind_split _ _ _ _ h1
    have herase : mmErase e.ptr s.allocated = l₁ ++ l₂ := by
      rw [← hptr, hsplit]; exact mmErase_split _ _ _ _ h1 h2
    simp only [step, ht, hfind, herase]

/-- The theorem `arrayFree_removes_single_entry` in the state after one `new` and two `new[]`
events, at the `delete[]` of the first array. -/
theorem arrayFree_removes_single_entry_witness :
    ∃ e l₁ l₂,
      [(1, sampleNew 10 1), (3, sampleNewArray 30 3), (4, sampleNewArray 8 4)]
        = l₁ ++ ((sampleDeleteArray 3).ptr, e) :: l₂ ∧
      (∀ p ∈ l₁ ++ l₂, p.1 ≠ (sampleDeleteArray 3).ptr) ∧
      step { totalAlloc := 48, totalDealloc := 0, objectAllocs := [sampleNew 10 1],
             allocated := [(1, sampleNew 10 1), (3, sampleNewArray 30 3),
               (4, sampleNewArray 8 4)] } (sampleDeleteArray 3) = some
        { totalAlloc := 48
          totalDealloc := (0 + e.size) % ullMod
          objectAllocs := [sampleNew 10 1]
          allocated := l₁ ++ l₂ } ∧
      (l₁ ++ l₂).length + 1
        = [(1, sampleNew 10 1), (3, sampleNewArray 30 3), (4, sampleNewArray 8 4)].length :=
  arrayFree_removes_single_entry [sampleNew 10 1, sampleNewArray 30 3, sampleNewArray 8 4]
    { totalAlloc := 48, totalDealloc := 0, objectAllocs := [sampleNew 10 1],
      allocated := [(1, sampleNew 10 1), (3, sampleNewArray 30 3), (4, sampleNewArray 8 4)] }
    (by decide) (sampleDeleteArray 3) rfl (by decide)

/-- C8 as stated fails: after two `new[]` events of 10 bytes at address 1 the address is
present in `allocated`, and the `delete[]` step at address 1 adds 10 to the deallocated total
and leaves `allocated` empty: it shrinks by two entries, not by one. -/
theorem arrayFree_removes_all_under_key :
    runEvents [sampleNewArray 10 1, sampleNewArray 10 1] = some
        { totalAlloc := 20, totalDealloc := 0, objectAllocs := [],
          allocated := [(1, sampleNewArray 10 1), (1, sampleNewArray 10 1)] } ∧
      step { totalAlloc := 20, totalDealloc := 0, objectAllocs := [],
             allocated := [(1, sampleNewArray 10 1), (1, sampleNewArray 10 1)] }
          (sampleDeleteArray 1) = some
        { totalAlloc := 20, totalDealloc := 10, objectAllocs := [], allocated := [] } ∧
      [(1, sampleNewArray 10 1), (1, sampleNewArray 10 1)].length ≠
        ([] : List (Nat × AllocEvent)).length + 1 := by
  decide

/-! ## Addresses of the object entries (C9) -/

/-- C10: when the pass completes, the leaked count of the report is the number of entries of
`allocated`; the "Confirmed leaked array" lines are one per array entry and the "Possible
leaked object" lines one per object entry, each with the size, function, file and line of
its entry; all confirmed lines precede all possible lines; and the two numbers of lines add
up to the leaked count. -/
theorem report_partitions_allocated (log : List AllocEvent) (s : Analysis)
    (h : runEvents log = some s) :
    (report s).totalLeakedCount = s.allocated.length ∧
      (report s).leakLines.filter LeakLine.isConfirmed
        = (s.allocated.filter isArrayEntry).map (fun p => confirmedOf p.2) ∧
      (report s).leakLines.filter (fun l => !l.isConfirmed)
        = (s.allocated.filter isObjectEntry).map (fun p => possibleOf p.2) ∧
      (report s).leakLines
        = (report s).leakLines.filter LeakLine.isConfirmed
            ++ (report s).leakLines.filter (fun l => !l.isConfirmed) ∧
      ((report s).leakLines.filter LeakLine.isConfirmed).length
        + ((report s).leakLines.filter (fun l => !l.isConfirmed)).length
        = (report s).totalLeakedCount := by
  refine ⟨rfl, filter_isConfirmed_leakLines s, filter_not_isConfirmed_leakLines s, ?_, ?_⟩
  · rw [filter_isConfirmed_leakLines, filter_not_isConfirmed_leakLines, leakLines_eq]
  · rw [filter_isConfirmed_leakLines, filter_not_isConfirmed_leakLines, List.length_map,
      List.length_map]
    exact length_filter_entries s.allocated (fun p hp => (runEvents_entry log s h p hp).2.2)

/-- The theorem `report_partitions_allocated` at a log that leaves an object between two
arrays in `allocated`. -/
theorem report_partitions_allocated_witness :
    runEvents [sampleNewArray 30 3, sampleNew 10 1, sampleNewArray 8 4] =
      some { totalAlloc := 48, totalDealloc := 0, objectAllocs := [sampleNew 10 1],
             allocated := [(3, sampleNewArray 30 3), (1, sampleNew 10 1),
               (4, sampleNewArray 8 4)] } ∧
    (report { totalAlloc := 48, totalDealloc := 0, objectAllocs := [sampleNew 10 1],
              allocated := [(3, sampleNewArray 30 3), (1, sampleNew 10 1),
                (4, sampleNewArray 8 4)] }).leakLines =
      [LeakLine.confirmedLeakedArray 30 "fill" "main.cpp" 30,
        LeakLine.confirmedLeakedArray 8 "fill" "main.cpp" 30,
        LeakLine.possibleLeakedObject 10 "main" "main.cpp" 10] ∧
    (report { totalAlloc := 48, totalDealloc := 0, objectAllocs := [sampleNew 10 1],
              allocated := [(3, sampleNewArray 30 3), (1, sampleNew 10 1),
                (4, sampleNewArray 8 4)] }).totalLeakedCount = 3 :=
  ⟨by decide, by decide,
    (report_partitions_allocated [sampleNewArray 30 3, sampleNew 10 1, sampleNewArray 8 4]
      { totalAlloc := 48, totalDealloc := 0, objectAllocs := [sampleNew 10 1],
        allocated := [(3, sampleNewArray 30 3), (1, sampleNew 10 1),
          (4, sampleNewArray 8 4)] } (by decide)).1⟩

/-! ## The recorder (C11, C12, C16) -/

/-- C11: on a non-empty event log, `operator delete[](p)` returns, and it changes the log
only in its last event and only when that event is a `delete` event: then its kind becomes
`delete[]` and its address `p`, while file, function, line and size stay; every earlier
event and the length of the log are unchanged. When the last event has another kind the log
is unchanged. -/
theorem deleteArray_promotes_last (p : Nat) (t : Tracer) (h : t.allocationEvents ≠ []) :
    ∃ earlier last t', t.allocationEvents = earlier ++ [last] ∧
      operatorDeleteArray p t = some t' ∧
      (last.type = AllocType_Delete →
        t'.allocationEvents = earlier ++
          [{ file := last.file, func := last.func, line := last.line,
             type := AllocType_DeleteArray, size := last.size, ptr := p }]) ∧
      (last.type ≠ AllocType_Delete → t'.allocationEvents = t.allocationEvents) ∧
      t'.allocationEvents.length = t.allocationEvents.length ∧
      t'.allocationEvents.take earlier.length = earlier := by
  obtain ⟨earlier, last, hsplit⟩ : ∃ earlier last, t.allocationEvents = earlier ++ [last] :=
    ⟨t.allocationEvents.dropLast, t.allocationEvents.getLast h,
      (List.dropLast_append_getLast h).symm⟩
  have hlast : t.allocationEvents.getLast? = some last := by rw [hsplit]; simp
  have hdrop : t.allocationEvents.dropLast = earlier := by rw [hsplit]; simp
  have hop : operatorDeleteArray p t = some
      { t with
        allocationEvents :=
          if last.type = AllocType_Delete then
            earlier ++ [{ last with type := AllocType_DeleteArray, ptr := p }]
          else t.allocationEvents
        written := t.written ++ [(t.allocationLog, TraceLine.lastDeleteWasArray p)] } := by
    simp only [operatorDeleteArray, hlast, hdrop]
  refine ⟨earlier, last, _, hsplit, hop, ?_, ?_, ?_, ?_⟩
  · intro ht
    simp [ht]
  · intro ht
    simp [ht]
  · by_cases ht : last.type = AllocType_Delete <;> simp [ht, hsplit]
  · by_cases ht : last.type = AllocType_Delete <;> simp [ht, hsplit]

/-- The theorem `deleteArray_promotes_last` after a `new[]` and a `delete` event. -/
theorem deleteArray_promotes_last_witness :
    ∃ earlier last t',
      [sampleNewArray 30 3, sampleDelete] = earlier ++ [last] ∧
      operatorDeleteArray 3
        { allocationLog := 1, allocationEvents := [sampleNewArray 30 3, sampleDelete],
          exitHooks := [ExitHook.analysisPass], written := [] } = some t' ∧
      (last.type = AllocType_Delete →
        t'.allocationEvents = earlier ++
          [{ file := last.file, func := last.func, line := last.line,
             type := AllocType_DeleteArray, size := last.size, ptr := 3 }]) ∧
      (last.type ≠ AllocType_Delete →
        t'.allocationEvents = [sampleNewArray 30 3, sampleDelete]) ∧
      t'.allocationEvents.length = [sampleNewArray 30 3, sampleDelete].length ∧
      t'.allocationEvents.take earlier.length = earlier :=
  deleteArray_promotes_last 3
    { allocationLog := 1, allocationEvents := [sampleNewArray 30 3, sampleDelete],
      exitHooks := [ExitHook.analysisPass], written := [] } (by decide)

theorem operatorNew_of_sink (t : Tracer) (hsink : t.allocationLog ≠ 0) (size : Nat)
    (file : String) (line : Int) (function : String) (ptr : Nat) :
    operatorNew size file line function ptr t = some (ptr,
      { t with
        allocationEvents := t.allocationEvents ++
          [{ file := file, func := function, line := line, type := AllocType_New,
             size := size, ptr := ptr }]
        written := t.written ++
          [(t.allocationLog, TraceLine.traceNew size function file line ptr)] }) := by
  simp only [operatorNew, if_neg hsink]

theorem operatorNewArray_of_sink (t : Tracer) (hsink : t.allocationLog ≠ 0) (size : Nat)
    (file : String) (line : Int) (function : String) (ptr : Nat) :
    operatorNewArray size file line function ptr t = some (ptr,
      { t with
        allocationEvents := t.allocationEvents ++
          [{ file := file, func := function, line := line, type := AllocType_NewArray,
             size := size, ptr := ptr }]
        written := t.written ++
          [(t.allocationLog, TraceLine.traceNewArray size function file line ptr)] }) := by
  simp only [operatorNewArray, if_neg hsink]

theorem deleteMacro_of_sink (t : Tracer) (hsink : t.allocationLog ≠ 0)
    (file function : String) (line : Int) :
    deleteMacro file function line t = some
      { t with
        allocationEvents :=
          t.allocationEvents ++ [AllocEvent.mk4 file function line AllocType_Delete]
        written :=
          t.written ++ [(t.allocationLog, TraceLine.traceDelete function file line)] } := by
  simp only [deleteMacro, if_neg hsink]

/-- C12, as the code has it: once the sink is set up (`allocationLog` is not null), each
appending recorder operation returns and puts exactly one event at the end of the event log,
leaving the earlier events as they are: `operator new` and `operator new[]` append the event
with the given file, function and line, the kind `new` resp. `new[]`, the requested size and
the address obtained from the raw allocation, and return that address; the `delete` macro
appends the event with the given call site, the kind `delete`, size 0 and the null
address. -/
theorem recorder_appends_one_event (t : Tracer) (hsink : t.allocationLog ≠ 0)
    (size ptr : Nat) (file function : String) (line : Int) :
    (∃ t', operatorNew size file line function ptr t = some (ptr, t') ∧
      t'.allocationEvents =
        t.allocationEvents ++
          [{ file := file, func := function, line := line, type := AllocType_New,
             size := size, ptr := ptr }]) ∧
    (∃ t', operatorNewArray size file line function ptr t = some (ptr, t') ∧
      t'.allocationEvents =
        t.allocationEvents ++
          [{ file := file, func := function, line := line, type := AllocType_NewArray,
             size := size, ptr := ptr }]) ∧
    (∃ t', deleteMacro file function line t = some t' ∧
      t'.allocationEvents =
        t.allocationEvents ++
          [{ file := file, func := function, line := line, type := AllocType_Delete,
             size := 0, ptr := 0 }]) :=
  ⟨⟨_, operatorNew_of_sink t hsink size file line function ptr, rfl⟩,
    ⟨_, operatorNewArray_of_sink t hsink size file line function ptr, rfl⟩,
    ⟨_, deleteMacro_of_sink t hsink file function line, rfl⟩⟩

/-- The theorem `recorder_appends_one_event` in the state after `setUpTrace` and one `new[]`
event. -/
theorem recorder_appends_one_event_witness :
    (∃ t', operatorNew 8 "main.cpp" 10 "main" 4096
        { allocationLog := 1, allocationEvents := [sampleNewArray 30 3],
          exitHooks := [ExitHook.analysisPass], written := [] } = some (4096, t') ∧
      t'.allocationEvents =
        [sampleNewArray 30 3] ++
          [{ file := "main.cpp", func := "main", line := 10, type := AllocType_New,
             size := 8, ptr := 4096 }]) ∧
    (∃ t', operatorNewArray 8 "main.cpp" 10 "main" 4096
        { allocationLog := 1, allocationEvents := [sampleNewArray 30 3],
          exitHooks := [ExitHook.analysisPass], written := [] } = some (4096, t') ∧
      t'.allocationEvents =
        [sampleNewArray 30 3] ++
          [{ file := "main.cpp", func := "main", line := 10, type := AllocType_NewArray,
             size := 8, ptr := 4096 }]) ∧
    (∃ t', deleteMacro "main.cpp" "main" 10
        { allocationLog := 1, allocationEvents := [sampleNewArray 30 3],
          exitHooks := [ExitHook.analysisPass], written := [] } = some t' ∧
      t'.allocationEvents =
        [sampleNewArray 30 3] ++
          [{ file := "main.cpp", func := "main", line := 10, type := AllocType_Delete,
             size := 0, ptr := 0 }]) :=
  recorder_appends_one_event
    { allocationLog := 1, allocationEvents := [sampleNewArray 30 3],
      exitHooks := [ExitHook.analysisPass], written := [] } (by decide) 8 4096 "main.cpp"
    "main" 10

/-- C12 as stated fails: at program start, before `setUpTrace`, `allocationLog` is null, and
`operator new`, `operator new[]` and the `delete` macro write through it right after they
have appended their event: none of the three calls returns. -/
theorem recorder_fails_before_setUp :
    operatorNew 8 "main.cpp" 10 "main" 4096 Tracer.start = none ∧
      operatorNewArray 8 "main.cpp" 30 "fill" 4096 Tracer.start = none ∧
      deleteMacro "main.cpp" "main" 20 Tracer.start = none := by
  decide

/-- C16 on the code: on the empty event log `operator delete[]` is not safe. It takes
`std::prev(allocationEvents.end())` of the empty vector and reads `lastEvent->type`, which
the embedding renders as a failed call: no state comes back, at program start and in the
state after `setUpTrace`. -/
theorem deleteArray_on_empty_log :
    operatorDeleteArray 7 Tracer.start = none ∧
      setUpTrace 1 Tracer.start =
        some { allocationLog := 1, allocationEvents := [],
               exitHooks := [ExitHook.analysisPass],
               written := [(1, TraceLine.runtimeTraceHeader)] } ∧
      operatorDeleteArray 7
        { allocationLog := 1, allocationEvents := [],
          exitHooks := [ExitHook.analysisPass],
          written := [(1, TraceLine.runtimeTraceHeader)] } = none := by
  decide

/-! ## Freed bytes against allocated bytes (C14) -/

/-- C14 on the code: on `new` 10 at address 1, `delete[]` at address 1, `delete` the pass
completes with 10 bytes allocated and 20 bytes deallocated: the `delete[]` step counts the
object stored under address 1 and erases it from `allocated` but leaves it in the queue, and
the `delete` step counts it again. The subtraction wraps, and the leaked size printed is
`2 ^ 64 - 10`. -/
theorem freed_exceeds_allocated :
    analysis [sampleNew 10 1, sampleDeleteArray 1, sampleDelete] =
      some { totalAllocated := 10, totalDeallocated := 20,
             totalLeakedSize := 18446744073709551606, totalLeakedCount := 0,
             leakLines := [] } ∧
    ¬ (20 : Nat) ≤ 10 ∧ (18446744073709551606 : Nat) = 2 ^ 64 - 10 := by
  decide

/-! ## Queue length and reads of an empty queue (C15) -/

theorem step_queue_length (s s' : Analysis) (e : AllocEvent) (h : step s e = some s') :
    s'.objectAllocs.length + countDelete [e] = s.objectAllocs.length + countNew [e] := by
  rcases step_eq_some s s' e h with ⟨ht, rfl⟩ | ⟨ht, rfl⟩ | ⟨ht, q₀, q, hqq, rfl⟩ |
    ⟨ht, e₀, hf, rfl⟩
  · simp [countDelete, countNew, ht, (pqPush_perm e s.objectAllocs).length_eq]
  · simp [countDelete, countNew, ht]
  · simp [countDelete, countNew, ht, hqq]
  · simp [countDelete, countNew, ht]

theorem countNew_cons (e : AllocEvent) (es : List AllocEvent) :
    countNew (e :: es) = countNew [e] + countNew es := by
  simp only [countNew, List.countP_cons, List.countP_nil]
  omega

theorem countDelete_cons (e : AllocEvent) (es : List AllocEvent) :
    countDelete (e :: es) = countDelete [e] + countDelete es := by
  simp only [countDelete, List.countP_cons, List.countP_nil]
  omega

theorem runFrom_queue_length (log : List AllocEvent) :
    ∀ s s' : Analysis, runFrom s log = some s' →
      s'.objectAllocs.length + countDelete log = s.objectAllocs.length + countNew log := by
  induction log with
  | nil =>
    intro s s' h
    simp only [runFrom, Option.some.injEq] at h
    subst h
    simp [countDelete, countNew]
  | cons e es ih =>
    intro s s' h
    simp only [runFrom] at h
    cases hs : step s e with
    | none => simp [hs] at h
    | some s₁ =>
      simp only [hs] at h
      have h1 := step_queue_length s s₁ e hs
      have h2 := ih s₁ s' h
      rw [countNew_cons, countDelete_cons]
      omega

theorem readsEmptyTop_iff (log : List AllocEvent) :
    ∀ s : Analysis, arrayFreesFound s log = true →
      (readsEmptyTop s log = false ↔
        ∀ n, countDelete (log.take n) ≤ s.objectAllocs.length + countNew (log.take n)) := by
  induction log with
  | nil =>
    intro s _
    simp [readsEmptyTop, countDelete]
  | cons e es ih =>
    intro s hfound
    have hsplit : (∀ n, countDelete ((e :: es).take n)
          ≤ s.objectAllocs.length + countNew ((e :: es).take n)) ↔
        ∀ n, countDelete [e] + countDelete (es.take n)
          ≤ s.objectAllocs.length + (countNew [e] + countNew (es.take n)) := by
      constructor
      · intro h n
        have := h (n + 1)
        rwa [List.take_succ_cons, countDelete_cons, countNew_cons] at this
      · intro h n
        cases n with
        | zero => simp [countDelete]
        | succ n =>
          rw [List.take_succ_cons, countDelete_cons, countNew_cons]
          exact h n
    rw [hsplit]
    simp only [arrayFreesFound, Bool.and_eq_true] at hfound
    obtain ⟨hfind, hrest⟩ := hfound
    cases hs : step s e with
    | none =>
      rcases ht : e.type with _ | _ | _ | _
      · simp [step, ht] at hs
      · simp [step, ht] at hs
      · have hq : s.objectAllocs = [] := by
          cases hq : s.objectAllocs with
          | nil => rfl
          | cons q₀ q => simp [step, ht, hq, pqTop] at hs
        simp only [readsEmptyTop, ht, hq, hs, decide_True, List.isEmpty_nil, Bool.and_self,
          Bool.or_false, Bool.true_eq_false, false_iff, not_forall, not_le]
        exact ⟨0, by simp [countDelete, countNew, ht]⟩
      · cases hf : mmFind e.ptr s.allocated with
        | none => simp [ht, hf] at hfind
        | some e₀ => simp [step, ht, hf] at hs
    | some s₁ =>
      simp only [hs] at hrest
      have ih' := ih s₁ hrest
      have hlen := step_queue_length s s₁ e hs
      have hnot : (decide (e.type = AllocType_Delete) && s.objectAllocs.isEmpty) = false := by
        rcases step_eq_some s s₁ e hs with ⟨ht, -⟩ | ⟨ht, -⟩ | ⟨ht, q₀, q, hqq, -⟩ | ⟨ht, -⟩
        · simp [ht]
        · simp [ht]
        · simp [hqq]
        · simp [ht]
      simp only [readsEmptyTop, hnot, hs, Bool.false_or]
      rw [ih']
      constructor
      · intro h n
        have := h n
        omega
      · intro h n
        have := h n
        omega

/-- C15, as the code has it: on every prefix of the log that the pass runs through, the
queue holds as many entries as the prefix has `new` events minus `delete` events; a `new[]`
or `delete[]` step never changes the queue; and on a log whose `delete[]` events all find
their address among the keys of `allocated`, no `delete` step reads the top of an empty
queue if and only if every prefix of the log has at least as many `new` events as `delete`
events. -/
theorem queue_length_and_empty_reads (log : List AllocEvent) :
    (∀ (n : Nat) (s : Analysis), runEvents (log.take n) = some s →
      s.objectAllocs.length + countDelete (log.take n) = countNew (log.take n)) ∧
    (∀ (s s' : Analysis) (e : AllocEvent),
      e.type = AllocType_NewArray ∨ e.type = AllocType_DeleteArray → step s e = some s' →
      s'.objectAllocs = s.objectAllocs) ∧
    (arrayFreesFound Analysis.init log = true →
      (readsEmptyTop Analysis.init log = false ↔
        ∀ n, countDelete (log.take n) ≤ countNew (log.take n))) := by
  refine ⟨?_, ?_, ?_⟩
  · intro n s h
    simpa [Analysis.init] using runFrom_queue_length (log.take n) Analysis.init s h
  · intro s s' e ht h
    rcases step_eq_some s s' e h with ⟨ht', -⟩ | ⟨-, rfl⟩ | ⟨ht', -⟩ | ⟨-, e₀, -, rfl⟩
    · rcases ht with ht | ht <;> simp [ht] at ht'
    · rfl
    · rcases ht with ht | ht <;> simp [ht] at ht'
    · rfl
  · intro hfound
    simpa [Analysis.init] using readsEmptyTop_iff log Analysis.init hfound

/-- The theorem `queue_length_and_empty_reads` at a log whose second `delete` meets an
empty queue. -/
theorem queue_length_and_empty_reads_witness :
    arrayFreesFound Analysis.init
        [sampleNew 10 1, sampleNewArray 30 3, sampleDelete, sampleDeleteArray 3, sampleDelete]
      = true ∧
    readsEmptyTop Analysis.init
        [sampleNew 10 1, sampleNewArray 30 3, sampleDelete, sampleDeleteArray 3, sampleDelete]
      = true ∧
    (readsEmptyTop Analysis.init
        [sampleNew 10 1, sampleNewArray 30 3, sampleDelete, sampleDeleteArray 3, sampleDelete]
        = false ↔
      ∀ n, countDelete
          ([sampleNew 10 1, sampleNewArray 30 3, sampleDelete, sampleDeleteArray 3,
            sampleDelete].take n)
        ≤ countNew
          ([sampleNew 10 1, sampleNewArray 30 3, sampleDelete, sampleDeleteArray 3,
            sampleDelete].take n)) :=
  ⟨by decide, by decide,
    (queue_length_and_empty_reads
      [sampleNew 10 1, sampleNewArray 30 3, sampleDelete, sampleDeleteArray 3,
        sampleDelete]).2.2 (by decide)⟩

/-- C15 as stated fails: on `delete[]` at address 7 followed by `delete`, the pass stops at
the `delete[]` step, whose address is no key of `allocated`, so no `delete` step reads the
top of an empty queue; yet the whole log has one `delete` event and no `new` event. -/
theorem no_empty_read_without_balance :
    readsEmptyTop Analysis.init [sampleDeleteArray 7, sampleDelete] = false ∧
      runEvents [sampleDeleteArray 7] = none ∧
      ¬ ∀ n, countDelete ([sampleDeleteArray 7, sampleDelete].take n)
          ≤ countNew ([sampleDeleteArray 7, sampleDelete].take n) := by
  refine ⟨by decide, by decide, ?_⟩
  intro h
  exact absurd (h 2) (by decide)

/-! ## Registration at process exit (C18) -/

theorem apply_exitHooks (op : TracerOp) (t t' : Tracer) (h : op.apply t = some t') :
    t'.exitHooks = t.exitHooks ++ List.replicate (countSetUps [op]) ExitHook.analysisPass ∧
      (t.allocationLog ≠ 0 ∨ 0 < countSetUps [op] → t'.allocationLog ≠ 0) := by
  cases op with
  | setUp call =>
    cases call <;>
      · simp only [TracerOp.apply, setUpTraceFile, setUpTrace] at h
        split at h
        · simp at h
        · rename_i hstream
          simp only [Option.some.injEq] at h
          subst h
          exact ⟨by simp [countSetUps], fun _ => hstream⟩
  | callNew size file line function ptr =>
    simp only [TracerOp.apply, operatorNew] at h
    split at h
    · simp at h
    · rename_i hsink
      simp only [Option.map_some', Option.some.injEq] at h
      subst h
      exact ⟨by simp [countSetUps], fun _ => hsink⟩
  | callNewArray size file line function ptr =>
    simp only [TracerOp.apply, operatorNewArray] at h
    split at h
    · simp at h
    · rename_i hsink
      simp only [Option.map_some', Option.some.injEq] at h
      subst h
      exact ⟨by simp [countSetUps], fun _ => hsink⟩
  | callDelete file function line =>
    simp only [TracerOp.apply, deleteMacro] at h
    split at h
    · simp at h
    · rename_i hsink
      simp only [Option.some.injEq] at h
      subst h
      exact ⟨by simp [countSetUps], fun _ => hsink⟩
  | callDeleteArray ptr =>
    simp only [TracerOp.apply, operatorDeleteArray] at h
    split at h
    · simp at h
    · simp only [Option.some.injEq] at h
      subst h
      refine ⟨by simp [countSetUps], ?_⟩
      intro hor
      rcases hor with hsink | hpos
      · exact hsink
      · simp [countSetUps] at hpos

theorem countSetUps_cons (op : TracerOp) (ops : List TracerOp) :
    countSetUps (op :: ops) = countSetUps [op] + countSetUps ops := by
  cases op <;> simp [countSetUps, Nat.add_comm]

theorem runProgram_exitHooks (ops : List TracerOp) :
    ∀ t t' : Tracer, runProgram ops t = some t' →
      t'.exitHooks = t.exitHooks ++ List.replicate (countSetUps ops) ExitHook.analysisPass ∧
        (t.allocationLog ≠ 0 ∨ 0 < countSetUps ops → t'.allocationLog ≠ 0) := by
  induction ops with
  | nil =>
    intro t t' h
    simp only [runProgram, Option.some.injEq] at h
    subst h
    refine ⟨by simp [countSetUps], ?_⟩
    intro hor
    rcases hor with hsink | hpos
    · exact hsink
    · simp [countSetUps] at hpos
  | cons op ops ih =>
    intro t t' h
    simp only [runProgram] at h
    cases hop : op.apply t with
    | none => simp [hop] at h
    | some t₁ =>
      simp only [hop] at h
      obtain ⟨h1, s1⟩ := ih t₁ t' h
      obtain ⟨h2, s2⟩ := apply_exitHooks op t t₁ hop
      have h3 := countSetUps_cons op ops
      refine ⟨by rw [h1, h2, h3, List.append_assoc, List.replicate_add], ?_⟩
      intro hor
      by_cases hop0 : 0 < countSetUps [op]
      · exact s1 (Or.inl (s2 (Or.inr hop0)))
      · rcases hor with hsink | hpos
        · exact s1 (Or.inl (s2 (Or.inl hsink)))
        · exact s1 (Or.inr (by omega))

theorem runHooks_of_pass (t : Tracer) (r : Report) (hsink : t.allocationLog ≠ 0)
    (hpass : analysis t.allocationEvents = some r) (hooks : List ExitHook) :
    runHooks t hooks = some (List.replicate hooks.length r) := by
  induction hooks with
  | nil => rfl
  | cons hook hooks ih =>
    cases hook
    simp only [runHooks, if_neg hsink, hpass, ih, List.length_cons, List.replicate_succ]

theorem runHooks_of_failed_pass (t : Tracer) (hfail : analysis t.allocationEvents = none)
    (hooks : List ExitHook) (hne : hooks ≠ []) : runHooks t hooks = none := by
  cases hooks with
  | nil => exact absurd rfl hne
  | cons hook hooks =>
    cases hook
    simp only [runHooks, hfail]
    split <;> rfl

/-- C18, as the code has it: every call of `setUpTrace` or `setUpTraceFile` hands the
analysis lambda to `std::atexit` once more, and no other call of the tracer touches the exit
hooks. In the state a program reaches from program start, the exit hooks hold the analysis
pass once per set-up call of the program, so the pass is registered exactly once exactly
when the program has a single set-up call; at exit, when the pass over the recorded events
completes, one report block per set-up call is written, all the same; when the pass fails,
no report block is written. -/
theorem setUp_registers_per_call (ops : List TracerOp) (t : Tracer)
    (hrun : runProgram ops Tracer.start = some t) :
    t.exitHooks = List.replicate (countSetUps ops) ExitHook.analysisPass ∧
      t.exitHooks.count ExitHook.analysisPass = countSetUps ops ∧
      (t.exitHooks.count ExitHook.analysisPass = 1 ↔ countSetUps ops = 1) ∧
      (∀ r, analysis t.allocationEvents = some r →
        runExitHooks t = some (List.replicate (countSetUps ops) r)) ∧
      (0 < countSetUps ops → analysis t.allocationEvents = none →
        runExitHooks t = none) := by
  obtain ⟨h, hsink⟩ := runProgram_exitHooks ops Tracer.start t hrun
  simp only [Tracer.start, List.nil_append] at h
  have hc : t.exitHooks.count ExitHook.analysisPass = countSetUps ops := by
    rw [h, List.count_replicate_self]
  refine ⟨h, hc, by rw [hc], ?_, ?_⟩
  · intro r hpass
    by_cases hpos : 0 < countSetUps ops
    · rw [runExitHooks, runHooks_of_pass t r (hsink (Or.inr hpos)) hpass,
        List.length_reverse, h, List.length_replicate]
    · have hz : countSetUps ops = 0 := by omega
      rw [runExitHooks, h, hz]
      rfl
  · intro hpos hfail
    apply runHooks_of_failed_pass t hfail
    intro hnil
    have hlen : t.exitHooks.reverse.length = 0 := by rw [hnil]; rfl
    rw [List.length_reverse, h, List.length_replicate] at hlen
    omega

/-- The theorem `setUp_registers_per_call` at a program with one set-up call, a `new` of 8
bytes and a `delete[]` statement on another block. -/
theorem setUp_registers_per_call_witness :
    runProgram
        [TracerOp.setUp (SetUpCall.traceFile "trace.log" 1),
          TracerOp.callNew 8 "main.cpp" 10 "main" 4096,
          TracerOp.callNewArray 30 "main.cpp" 30 "fill" 8192,
          TracerOp.callDelete "main.cpp" "main" 20,
          TracerOp.callDeleteArray 8192] Tracer.start =
      some { allocationLog := 1,
             allocationEvents :=
               [{ file := "main.cpp", func := "main", line := 10, type := AllocType_New,
                  size := 8, ptr := 4096 },
                { file := "main.cpp", func := "fill", line := 30, type := AllocType_NewArray,
                  size := 30, ptr := 8192 },
                { file := "main.cpp", func := "main", line := 20,
                  type := AllocType_DeleteArray, size := 0, ptr := 8192 }],
             exitHooks := [ExitHook.analysisPass],
             written :=
               [(1, TraceLine.runtimeTraceHeader),
                (1, TraceLine.traceNew 8 "main" "main.cpp" 10 4096),
                (1, TraceLine.traceNewArray 30 "fill" "main.cpp" 30 8192),
                (1, TraceLine.traceDelete "main" "main.cpp" 20),
                (1, TraceLine.lastDeleteWasArray 8192)] } ∧
    runExitHooks
        { allocationLog := 1,
          allocationEvents :=
            [{ file := "main.cpp", func := "main", line := 10, type := AllocType_New,
               size := 8, ptr := 4096 },
             { file := "main.cpp", func := "fill", line := 30, type := AllocType_NewArray,
               size := 30, ptr := 8192 },
             { file := "main.cpp", func := "main", line := 20,
               type := AllocType_DeleteArray, size := 0, ptr := 8192 }],
          exitHooks := [ExitHook.analysisPass],
          written :=
            [(1, TraceLine.runtimeTraceHeader),
             (1, TraceLine.traceNew 8 "main" "main.cpp" 10 4096),
             (1, TraceLine.traceNewArray 30 "fill" "main.cpp" 30 8192),
             (1, TraceLine.traceDelete "main" "main.cpp" 20),
             (1, TraceLine.lastDeleteWasArray 8192)] } =
      some [{ totalAllocated := 38, totalDeallocated := 30, totalLeakedSize := 8,
              totalLeakedCount := 1,
              leakLines := [LeakLine.possibleLeakedObject 8 "main" "main.cpp" 10] }] :=
  ⟨by decide,
    ((setUp_registers_per_call
      [TracerOp.setUp (SetUpCall.traceFile "trace.log" 1),
        TracerOp.callNew 8 "main.cpp" 10 "main" 4096,
        TracerOp.callNewArray 30 "main.cpp" 30 "fill" 8192,
        TracerOp.callDelete "main.cpp" "main" 20,
        TracerOp.callDeleteArray 8192] _ (by decide)).2.2.2.1
      { totalAllocated := 38, totalDeallocated := 30, totalLeakedSize := 8,
        totalLeakedCount := 1,
        leakLines := [LeakLine.possibleLeakedObject 8 "main" "main.cpp" 10] }
      (by decide))⟩

/-- C18 as stated fails: in a program that calls `setUpTraceFile` and then `setUpTrace` and
leaks one object of 8 bytes, the exit hooks hold the analysis pass twice, and at exit the
pass runs twice and writes two report blocks. -/
theorem setUp_twice_registers_twice :
    runProgram
        [TracerOp.setUp (SetUpCall.traceFile "trace.log" 1),
          TracerOp.setUp (SetUpCall.trace 2),
          TracerOp.callNew 8 "main.cpp" 10 "main" 4096] Tracer.start =
      some { allocationLog := 2,
             allocationEvents :=
               [{ file := "main.cpp", func := "main", line := 10, type := AllocType_New,
                  size := 8, ptr := 4096 }],
             exitHooks := [ExitHook.analysisPass, ExitHook.analysisPass],
             written :=
               [(1, TraceLine.runtimeTraceHeader), (2, TraceLine.runtimeTraceHeader),
                (2, TraceLine.traceNew 8 "main" "main.cpp" 10 4096)] } ∧
    [ExitHook.analysisPass, ExitHook.analysisPass].count ExitHook.analysisPass ≠ 1 ∧
    runExitHooks
        { allocationLog := 2,
          allocationEvents :=
            [{ file := "main.cpp", func := "main", line := 10, type := AllocType_New,
               size := 8, ptr := 4096 }],
          exitHooks := [ExitHook.analysisPass, ExitHook.analysisPass],
          written :=
            [(1, TraceLine.runtimeTraceHeader), (2, TraceLine.runtimeTraceHeader),
             (2, TraceLine.traceNew 8 "main" "main.cpp" 10 4096)] } =
      some [{ totalAllocated := 8, totalDeallocated := 0, totalLeakedSize := 8,
              totalLeakedCount := 1,
              leakLines := [LeakLine.possibleLeakedObject 8 "main" "main.cpp" 10] },
            { totalAllocated := 8, totalDeallocated := 0, totalLeakedSize := 8,
              totalLeakedCount := 1,
              leakLines := [LeakLine.possibleLeakedObject 8 "main" "main.cpp" 10] }] := by
  decide

/-! ## Conservation of bytes (C13) -/

theorem keys_nodup_unique (m : List (Nat × AllocEvent)) (hn : (m.map Prod.fst).Nodup)
    (k : Nat) (v v' : AllocEvent) (h1 : (k, v) ∈ m) (h2 : (k, v') ∈ m) : v = v' := by
  induction m with
  | nil => simp at h1
  | cons p m ih =>
    simp only [List.map_cons, List.nodup_cons, List.mem_map, not_exists, not_and] at hn
    rcases List.mem_cons.mp h1 with h1 | h1 <;> rcases List.mem_cons.mp h2 with h2 | h2
    · have := h1.trans h2.symm
      exact (Prod.mk.injEq _ _ _ _ ▸ this).2
    · exact absurd (by rw [← h1]) (hn.1 (k, v') h2)
    · exact absurd (by rw [← h2]) (hn.1 (k, v) h1)
    · exact ih hn.2 h1 h2

theorem mmErase_of_not_key (k : Nat) (m : List (Nat × AllocEvent))
    (h : ∀ p ∈ m, p.1 ≠ k) : mmErase k m = m := by
  rw [mmErase_eq_filter]
  exact List.filter_eq_self.mpr (fun p hp => by simpa using h p hp)

theorem mmErase_single (m : List (Nat × AllocEvent)) (hn : (m.map Prod.fst).Nodup)
    (k : Nat) (v : AllocEvent) (h : (k, v) ∈ m) :
    outstandingSizes (mmErase k m) + v.size = outstandingSizes m ∧
      (mmErase k m).length + 1 = m.length := by
  induction m with
  | nil => simp at h
  | cons p m ih =>
    obtain ⟨k', e⟩ := p
    simp only [List.map_cons, List.nodup_cons, List.mem_map, not_exists, not_and] at hn
    by_cases hk : k' = k
    · subst hk
      have hv : v = e := by
        rcases List.mem_cons.mp h with h | h
        · exact (Prod.mk.injEq _ _ _ _ ▸ h).2
        · exact absurd rfl (hn.1 (k', v) h)
      subst hv
      have hrest : mmErase k' m = m :=
        mmErase_of_not_key k' m (fun p hp hpk => hn.1 p hp hpk)
      simp [mmErase, hrest, outstandingSizes]
      omega
    · have hmem : (k, v) ∈ m := by
        rcases List.mem_cons.mp h with h | h
        · exact absurd (Prod.mk.injEq _ _ _ _ ▸ h).1.symm hk
        · exact h
      obtain ⟨h1, h2⟩ := ih hn.2 hmem
      simp only [outstandingSizes] at h1 ⊢
      simp [mmErase, hk]
      omega

theorem mod_step_alloc (M a d O x : Nat) (h : (d + O) % M = a) :
    (d + (O + x)) % M = (a + x) % M := by
  rw [← h, Nat.mod_add_mod, Nat.add_assoc]

theorem mod_step_free (M a d O O' x : Nat) (h : (d + O) % M = a) (hO : O' + x = O) :
    ((d + x) % M + O') % M = a := by
  rw [Nat.mod_add_mod, ← h, ← hO]
  congr 1
  omega

theorem countAllocs_cons (e : AllocEvent) (es : List AllocEvent) :
    countAllocs (e :: es) = countAllocs [e] + countAllocs es := by
  simp only [countAllocs, List.countP_cons, List.countP_nil]
  omega

theorem countFrees_cons (e : AllocEvent) (es : List AllocEvent) :
    countFrees (e :: es) = countFrees [e] + countFrees es := by
  simp only [countFrees, List.countP_cons, List.countP_nil]
  omega

theorem step_new (s : Analysis) (e : AllocEvent) (ht : e.type = AllocType_New) :
    ∃ s₁, step s e = some s₁ ∧ s₁.totalAlloc = (s.totalAlloc + e.size) % ullMod ∧
      s₁.totalDealloc = s.totalDealloc ∧ s₁.objectAllocs = pqPush e s.objectAllocs ∧
      s₁.allocated = s.allocated ++ [(e.ptr, e)] :=
  ⟨{ s with
      totalAlloc := (s.totalAlloc + e.size) % ullMod
      objectAllocs := pqPush e s.objectAllocs
      allocated := mmInsert e.ptr e s.allocated },
    by simp only [step, ht], rfl, rfl, rfl, rfl⟩

theorem step_newArray (s : Analysis) (e : AllocEvent) (ht : e.type = AllocType_NewArray) :
    ∃ s₁, step s e = some s₁ ∧ s₁.totalAlloc = (s.totalAlloc + e.size) % ullMod ∧
      s₁.totalDealloc = s.totalDealloc ∧ s₁.objectAllocs = s.objectAllocs ∧
      s₁.allocated = s.allocated ++ [(e.ptr, e)] :=
  ⟨{ s with
      totalAlloc := (s.totalAlloc + e.size) % ullMod
      allocated := mmInsert e.ptr e s.allocated },
    by simp only [step, ht], rfl, rfl, rfl, rfl⟩

theorem step_delete (s : Analysis) (e q₀ : AllocEvent) (q : List AllocEvent)
    (ht : e.type = AllocType_Delete) (hq : s.objectAllocs = q₀ :: q) :
    ∃ s₁, step s e = some s₁ ∧ s₁.totalAlloc = s.totalAlloc ∧
      s₁.totalDealloc = (s.totalDealloc + q₀.size) % ullMod ∧ s₁.objectAllocs = q ∧
      s₁.allocated = mmErase q₀.ptr s.allocated :=
  ⟨{ s with
      totalDealloc := (s.totalDealloc + q₀.size) % ullMod
      allocated := mmErase q₀.ptr s.allocated
      objectAllocs := q },
    by simp only [step, ht, hq, pqTop, pqPop], rfl, rfl, rfl, rfl⟩

theorem step_deleteArray (s : Analysis) (e e₀ : AllocEvent)
    (ht : e.type = AllocType_DeleteArray) (hf : mmFind e.ptr s.allocated = some e₀) :
    ∃ s₁, step s e = some s₁ ∧ s₁.totalAlloc = s.totalAlloc ∧
      s₁.totalDealloc = (s.totalDealloc + e₀.size) % ullMod ∧
      s₁.objectAllocs = s.objectAllocs ∧ s₁.allocated = mmErase e₀.ptr s.allocated :=
  ⟨{ s with
      totalDealloc := (s.totalDealloc + e₀.size) % ullMod
      allocated := mmErase e₀.ptr s.allocated },
    by simp only [step, ht, hf], rfl, rfl, rfl, rfl⟩

theorem conservation_from (log : List AllocEvent) :
    ∀ s : Analysis,
      ((s.allocated ++ allocEntries log).map Prod.fst).Nodup →
      (∀ p ∈ s.allocated, p.1 = p.2.ptr) →
      (∀ q ∈ s.objectAllocs, q.type = AllocType_New ∧ (q.ptr, q) ∈ s.allocated) →
      s.objectAllocs.Nodup →
      s.totalAlloc < ullMod → s.totalDealloc < ullMod →
      (s.totalDealloc + outstandingSizes s.allocated) % ullMod = s.totalAlloc →
      freesMatch s log = true →
      ∃ s', runFrom s log = some s' ∧ s'.totalAlloc < ullMod ∧ s'.totalDealloc < ullMod ∧
        (s'.totalDealloc + outstandingSizes s'.allocated) % ullMod = s'.totalAlloc ∧
        s'.allocated.length + countFrees log = s.allocated.length + countAllocs log := by
  have hM : 0 < ullMod := by decide
  induction log with
  | nil =>
    intro s _ _ _ _ ha hd hsum _
    exact ⟨s, rfl, ha, hd, hsum, by simp [countFrees, countAllocs]⟩
  | cons e es ih =>
    intro s h1 h2 h3 h4 ha hd hsum hw
    have hkeys : (s.allocated.map Prod.fst).Nodup := by
      rw [List.map_append] at h1
      exact (List.nodup_append.mp h1).1
    rcases ht : e.type with _ | _ | _ | _
    · -- new
      obtain ⟨s₁, hstep, ta, td, tq, tm⟩ := step_new s e ht
      have hentries : allocEntries (e :: es) = (e.ptr, e) :: allocEntries es := by
        simp [allocEntries, ht]
      have hfresh : ∀ p ∈ s.allocated, p.1 ≠ e.ptr := by
        intro p hp hpe
        rw [hentries, List.map_append, List.map_cons] at h1
        exact (List.nodup_append.mp h1).2.2 (List.mem_map.mpr ⟨p, hp, rfl⟩)
          (by rw [hpe]; exact List.mem_cons_self _ _)
      have hw' : freesMatch s₁ es = true := by
        simpa [freesMatch, ht, hstep] using hw
      obtain ⟨s', r1, r2, r3, r4, r5⟩ := ih s₁
        (by rw [tm]; simpa [hentries] using h1)
        (by
          intro p hp
          rw [tm] at hp
          rcases List.mem_append.mp hp with hp | hp
          · exact h2 p hp
          · simp only [List.mem_singleton] at hp; subst hp; rfl)
        (by
          intro x hx
          rw [tq] at hx
          rw [tm]
          rcases (mem_pqPush x e s.objectAllocs).mp hx with rfl | hx
          · exact ⟨ht, by simp⟩
          · exact ⟨(h3 x hx).1, List.mem_append_left _ (h3 x hx).2⟩)
        (by
          rw [tq]
          refine (pqPush_perm e s.objectAllocs).nodup_iff.mpr (List.nodup_cons.mpr ⟨?_, h4⟩)
          intro he
          exact hfresh _ (h3 e he).2 rfl)
        (by rw [ta]; exact Nat.mod_lt _ hM) (by rw [td]; exact hd)
        (by
          have : outstandingSizes (s.allocated ++ [(e.ptr, e)])
              = outstandingSizes s.allocated + e.size := by
            simp [outstandingSizes]
          rw [ta, td, tm, this]
          exact mod_step_alloc _ _ _ _ _ hsum)
        hw'
      refine ⟨s', by simp only [runFrom, hstep]; exact r1, r2, r3, r4, ?_⟩
      have hA : countAllocs [e] = 1 := by simp [countAllocs, ht]
      have hF : countFrees [e] = 0 := by simp [countFrees, ht]
      rw [countAllocs_cons, countFrees_cons, hA, hF]
      simp only [tm, List.length_append, List.length_singleton] at r5
      omega
    · -- new[]
      obtain ⟨s₁, hstep, ta, td, tq, tm⟩ := step_newArray s e ht
      have hentries : allocEntries (e :: es) = (e.ptr, e) :: allocEntries es := by
        simp [allocEntries, ht]
      have hw' : freesMatch s₁ es = true := by
        simpa [freesMatch, ht, hstep] using hw
      obtain ⟨s', r1, r2, r3, r4, r5⟩ := ih s₁
        (by rw [tm]; simpa [hentries] using h1)
        (by
          intro p hp
          rw [tm] at hp
          rcases List.mem_append.mp hp with hp | hp
          · exact h2 p hp
          · simp only [List.mem_singleton] at hp; subst hp; rfl)
        (by
          intro x hx
          rw [tq] at hx
          rw [tm]
          exact ⟨(h3 x hx).1, List.mem_append_left _ (h3 x hx).2⟩)
        (by rw [tq]; exact h4)
        (by rw [ta]; exact Nat.mod_lt _ hM) (by rw [td]; exact hd)
        (by
          have : outstandingSizes (s.allocated ++ [(e.ptr, e)])
              = outstandingSizes s.allocated + e.size := by
            simp [outstandingSizes]
          rw [ta, td, tm, this]
          exact mod_step_alloc _ _ _ _ _ hsum)
        hw'
      refine ⟨s', by simp only [runFrom, hstep]; exact r1, r2, r3, r4, ?_⟩
      have hA : countAllocs [e] = 1 := by simp [countAllocs, ht]
      have hF : countFrees [e] = 0 := by simp [countFrees, ht]
      rw [countAllocs_cons, countFrees_cons, hA, hF]
      simp only [tm, List.length_append, List.length_singleton] at r5
      omega
    · -- delete
      cases hq : s.objectAllocs with
      | nil => simp [freesMatch, ht, hq] at hw
      | cons q₀ q =>
        obtain ⟨s₁, hstep, ta, td, tq, tm⟩ := step_delete s e q₀ q ht hq
        have hentries : allocEntries (e :: es) = allocEntries es := by
          simp [allocEntries, ht]
        have hq₀ : (q₀.ptr, q₀) ∈ s.allocated := (h3 q₀ (by rw [hq]; simp)).2
        obtain ⟨e1, e2⟩ := mmErase_single s.allocated hkeys q₀.ptr q₀ hq₀
        rw [hq] at h4
        have hw' : freesMatch s₁ es = true := by
          simpa [freesMatch, ht, hstep, hq] using hw
        obtain ⟨s', r1, r2, r3, r4, r5⟩ := ih s₁
          (by
            rw [hentries] at h1
            rw [tm]
            exact (((mmErase_sublist q₀.ptr s.allocated).append
              (List.Sublist.refl (allocEntries es))).map Prod.fst).nodup h1)
          (fun p hp => h2 p ((mmErase_sublist q₀.ptr s.allocated).subset (tm ▸ hp)))
          (by
            intro x hx
            rw [tq] at hx
            have hx' := h3 x (by rw [hq]; exact List.mem_cons_of_mem _ hx)
            refine ⟨hx'.1, ?_⟩
            rw [tm, mmErase_eq_filter, List.mem_filter]
            refine ⟨hx'.2, ?_⟩
            simp only [ne_eq, decide_not, Bool.not_eq_true', decide_eq_false_iff_not]
            intro hxe
            have : x = q₀ := keys_nodup_unique s.allocated hkeys q₀.ptr x q₀
              (by rw [← hxe]; exact hx'.2) hq₀
            exact (List.nodup_cons.mp h4).1 (this ▸ hx))
          (by rw [tq]; exact (List.nodup_cons.mp h4).2)
          (by rw [ta]; exact ha) (by rw [td]; exact Nat.mod_lt _ hM)
          (by rw [ta, td, tm]; exact mod_step_free _ _ _ _ _ _ hsum e1)
          hw'
        refine ⟨s', by simp only [runFrom, hstep]; exact r1, r2, r3, r4, ?_⟩
        have hA : countAllocs [e] = 0 := by simp [countAllocs, ht]
        have hF : countFrees [e] = 1 := by simp [countFrees, ht]
        rw [countAllocs_cons, countFrees_cons, hA, hF]
        rw [tm] at r5
        omega
    · -- delete[]
      have hcond : ∃ p ∈ s.allocated, p.1 = e.ptr ∧ isArrayEntry p = true := by
        simp only [freesMatch, ht, Bool.and_eq_true, List.any_eq_true,
          decide_eq_true_eq] at hw
        exact hw.1
      obtain ⟨p, hp, hpk, hparr⟩ := hcond
      cases hf : mmFind e.ptr s.allocated with
      | none => exact absurd hpk ((mmFind_eq_none e.ptr s.allocated).mp hf p hp)
      | some e₀ =>
        have hmem : (e.ptr, e₀) ∈ s.allocated := mmFind_mem _ _ _ hf
        have hptr : e.ptr = e₀.ptr := h2 _ hmem
        have hp2 : e₀ = p.2 := keys_nodup_unique s.allocated hkeys e.ptr e₀ p.2 hmem
          (by rw [← hpk]; exact hp)
        have harr : e₀.type = AllocType_NewArray := by
          rw [hp2]; simpa [isArrayEntry] using hparr
        obtain ⟨s₁, hstep, ta, td, tq, tm⟩ := step_deleteArray s e e₀ ht hf
        have hentries : allocEntries (e :: es) = allocEntries es := by
          simp [allocEntries, ht]
        rw [hptr] at hmem
        obtain ⟨e1, e2⟩ := mmErase_single s.allocated hkeys e₀.ptr e₀ hmem
        have hw' : freesMatch s₁ es = true := by
          simp only [freesMatch, ht, hstep, Bool.and_eq_true] at hw
          exact hw.2
        obtain ⟨s', r1, r2, r3, r4, r5⟩ := ih s₁
          (by
            rw [hentries] at h1
            rw [tm]
            exact (((mmErase_sublist e₀.ptr s.allocated).append
              (List.Sublist.refl (allocEntries es))).map Prod.fst).nodup h1)
          (fun p hp => h2 p ((mmErase_sublist e₀.ptr s.allocated).subset (tm ▸ hp)))
          (by
            intro x hx
            rw [tq] at hx
            have hx' := h3 x hx
            refine ⟨hx'.1, ?_⟩
            rw [tm, mmErase_eq_filter, List.mem_filter]
            refine ⟨hx'.2, ?_⟩
            simp only [ne_eq, decide_not, Bool.not_eq_true', decide_eq_false_iff_not]
            intro hxe
            have : x = e₀ := keys_nodup_unique s.allocated hkeys e₀.ptr x e₀
              (by rw [← hxe]; exact hx'.2) hmem
            rw [this, harr] at hx'
            exact absurd hx'.1 (by decide))
          (by rw [tq]; exact h4)
          (by rw [ta]; exact ha) (by rw [td]; exact Nat.mod_lt _ hM)
          (by rw [ta, td, tm]; exact mod_step_free _ _ _ _ _ _ hsum e1)
          hw'
        refine ⟨s', by simp only [runFrom, hstep]; exact r1, r2, r3, r4, ?_⟩
        have hA : countAllocs [e] = 0 := by simp [countAllocs, ht]
        have hF : countFrees [e] = 1 := by simp [countFrees, ht]
        rw [countAllocs_cons, countFrees_cons, hA, hF]
        rw [tm] at r5
        omega

theorem leaked_size_mod (a d O : Nat) (ha : a < ullMod) (hd : d < ullMod)
    (h : (d + O) % ullMod = a) : (a + ullMod - d) % ullMod = O % ullMod := by
  have hM : ullMod = 18446744073709551616 := by decide
  rw [hM] at ha hd h ⊢
  omega

theorem outstandingSizes_allocEntries (log : List AllocEvent) :
    outstandingSizes (allocEntries log) = allocatedSizes log := by
  induction log with
  | nil => rfl
  | cons e es ih =>
    by_cases h : e.type = AllocType_New ∨ e.type = AllocType_NewArray
    · simp only [allocEntries, allocatedSizes, h, if_true]
      simp only [outstandingSizes, List.map_cons, List.sum_cons] at ih ⊢
      rw [ih]
    · simp only [allocEntries, allocatedSizes, h, if_false]
      exact ih

theorem outstandingSizes_le (log : List AllocEvent) (s : Analysis)
    (h : runEvents log = some s) : outstandingSizes s.allocated ≤ allocatedSizes log := by
  rw [← outstandingSizes_allocEntries]
  exact ((runEvents_allocated_sublist log s h).map (fun p => p.2.size)).sum_le_sum
    (fun _ _ => Nat.zero_le _)

/-- C13, as the code has it: on a log whose allocation events have pairwise distinct
addresses, whose `delete` events are each met with a non-empty queue and whose `delete[]`
events each carry the address of an array entry of `allocated`, the pass completes; the
leaked size of the report is the sum of the sizes of the entries left in `allocated` modulo
`2 ^ 64`, and the sum itself when the sizes of all allocation events add up to less than
`2 ^ 64`; and the leaked count is the number of allocation events minus the number of free
events. -/
theorem conservation_of_bytes (log : List AllocEvent)
    (hdistinct : ((allocEntries log).map Prod.fst).Nodup)
    (hmatch : freesMatch Analysis.init log = true) :
    ∃ s, runEvents log = some s ∧
      (report s).totalLeakedSize = outstandingSizes s.allocated % ullMod ∧
      (allocatedSizes log < ullMod →
        (report s).totalLeakedSize = outstandingSizes s.allocated) ∧
      countFrees log ≤ countAllocs log ∧
      (report s).totalLeakedCount = countAllocs log - countFrees log := by
  obtain ⟨s, h1, h2, h3, h4, h5⟩ := conservation_from log Analysis.init
    (by simpa [Analysis.init] using hdistinct) (by simp [Analysis.init])
    (by simp [Analysis.init]) (by simp [Analysis.init]) (by decide) (by decide)
    (by simp [Analysis.init, outstandingSizes]) hmatch
  have hleak : (report s).totalLeakedSize = outstandingSizes s.allocated % ullMod :=
    leaked_size_mod _ _ _ h2 h3 h4
  simp only [Analysis.init, List.length_nil, Nat.zero_add] at h5
  refine ⟨s, h1, hleak, ?_, by omega, ?_⟩
  · intro hlt
    rw [hleak]
    exact Nat.mod_eq_of_lt (Nat.lt_of_le_of_lt (outstandingSizes_le log s h1) hlt)
  · show s.allocated.length = countAllocs log - countFrees log
    omega

/-- The theorem `conservation_of_bytes` at a log of two objects and two arrays with one
`delete` and one `delete[]`. -/
theorem conservation_of_bytes_witness :
    ((allocEntries [sampleNew 10 1, sampleNewArray 30 3, sampleNew 20 2, sampleDelete,
        sampleNewArray 8 4, sampleDeleteArray 3]).map Prod.fst).Nodup ∧
    freesMatch Analysis.init [sampleNew 10 1, sampleNewArray 30 3, sampleNew 20 2,
        sampleDelete, sampleNewArray 8 4, sampleDeleteArray 3] = true ∧
    analysis [sampleNew 10 1, sampleNewArray 30 3, sampleNew 20 2, sampleDelete,
        sampleNewArray 8 4, sampleDeleteArray 3] =
      some { totalAllocated := 68, totalDeallocated := 40, totalLeakedSize := 28,
             totalLeakedCount := 2,
             leakLines := [LeakLine.confirmedLeakedArray 8 "fill" "main.cpp" 30,
               LeakLine.possibleLeakedObject 20 "main" "main.cpp" 10] } ∧
    ∃ s, runEvents [sampleNew 10 1, sampleNewArray 30 3, sampleNew 20 2, sampleDelete,
        sampleNewArray 8 4, sampleDeleteArray 3] = some s ∧
      (report s).totalLeakedSize = outstandingSizes s.allocated % ullMod ∧
      (allocatedSizes [sampleNew 10 1, sampleNewArray 30 3, sampleNew 20 2, sampleDelete,
          sampleNewArray 8 4, sampleDeleteArray 3] < ullMod →
        (report s).totalLeakedSize = outstandingSizes s.allocated) ∧
      countFrees [sampleNew 10 1, sampleNewArray 30 3, sampleNew 20 2, sampleDelete,
          sampleNewArray 8 4, sampleDeleteArray 3]
        ≤ countAllocs [sampleNew 10 1, sampleNewArray 30 3, sampleNew 20 2, sampleDelete,
          sampleNewArray 8 4, sampleDeleteArray 3] ∧
      (report s).totalLeakedCount =
        countAllocs [sampleNew 10 1, sampleNewArray 30 3, sampleNew 20 2, sampleDelete,
          sampleNewArray 8 4, sampleDeleteArray 3]
        - countFrees [sampleNew 10 1, sampleNewArray 30 3, sampleNew 20 2, sampleDelete,
          sampleNewArray 8 4, sampleDeleteArray 3] :=
  ⟨by decide, by decide, by decide,
    conservation_of_bytes [sampleNew 10 1, sampleNewArray 30 3, sampleNew 20 2, sampleDelete,
      sampleNewArray 8 4, sampleDeleteArray 3] (by decide) (by decide)⟩

/-- C13 as stated fails: on `new[]` of `2 ^ 64 - 1` bytes at the null address (an allocation
that `std::malloc` refused) followed by `new` of 4 bytes at address 1, the addresses are
distinct and there is no free event; the pass completes, the two entries left in `allocated`
have sizes that add up to `2 ^ 64 + 3`, and the leaked size of the report is 3. -/
theorem leaked_size_wraps :
    ((allocEntries [sampleNewArray 18446744073709551615 0, sampleNew 4 1]).map
        Prod.fst).Nodup ∧
    freesMatch Analysis.init [sampleNewArray 18446744073709551615 0, sampleNew 4 1] = true ∧
    runEvents [sampleNewArray 18446744073709551615 0, sampleNew 4 1] =
      some { totalAlloc := 3, totalDealloc := 0, objectAllocs := [sampleNew 4 1],
             allocated := [(0, sampleNewArray 18446744073709551615 0), (1, sampleNew 4 1)] } ∧
    (report { totalAlloc := 3, totalDealloc := 0, objectAllocs := [sampleNew 4 1],
              allocated := [(0, sampleNewArray 18446744073709551615 0),
                (1, sampleNew 4 1)] }).totalLeakedSize = 3 ∧
    outstandingSizes [(0, sampleNewArray 18446744073709551615 0), (1, sampleNew 4 1)]
      = 18446744073709551619 := by
  decide

/-! ## Order of the allocations and the size heuristic (C17) -/

theorem pqPush_sorted (e : AllocEvent) (q : List AllocEvent)
    (h : q.Pairwise (fun x y => x.size ≤ y.size)) :
    (pqPush e q).Pairwise (fun x y => x.size ≤ y.size) := by
  induction q with
  | nil => simp [pqPush]
  | cons y ys ih =>
    obtain ⟨hy, hys⟩ := List.pairwise_cons.mp h
    by_cases hc : AllocSizeCompare y e = true
    · have hlt : e.size < y.size := by simpa [AllocSizeCompare] using hc
      simp only [pqPush, hc, if_true]
      refine List.pairwise_cons.mpr ⟨?_, h⟩
      intro x hx
      rcases List.mem_cons.mp hx with rfl | hx
      · exact Nat.le_of_lt hlt
      · exact Nat.le_trans (Nat.le_of_lt hlt) (hy x hx)
    · have hle : y.size ≤ e.size := by simpa [AllocSizeCompare] using hc
      simp only [pqPush, hc, Bool.false_eq_true, if_false]
      refine List.pairwise_cons.mpr ⟨?_, ih hys⟩
      intro x hx
      rcases (mem_pqPush x e ys).mp hx with rfl | hx
      · exact hle
      · exact hy x hx

theorem runFrom_news_sorted (allocs : List AllocEvent)
    (ha : ∀ e ∈ allocs, e.type = AllocType_New) :
    ∀ s s' : Analysis, runFrom s allocs = some s' →
      s.objectAllocs.Pairwise (fun x y => x.size ≤ y.size) →
      s'.objectAllocs.Pairwise (fun x y => x.size ≤ y.size) := by
  induction allocs with
  | nil =>
    intro s s' h hs
    simp only [runFrom, Option.some.injEq] at h
    exact h ▸ hs
  | cons e es ih =>
    intro s s' h hs
    obtain ⟨s₁, hstep, -, -, tq, -⟩ := step_new s e (ha e (List.mem_cons_self _ _))
    simp only [runFrom, hstep] at h
    exact ih (fun x hx => ha x (List.mem_cons_of_mem _ hx)) s₁ s' h
      (by rw [tq]; exact pqPush_sorted e _ hs)

theorem runFrom_deletes_take (frees : List AllocEvent)
    (hf : ∀ e ∈ frees, e.type = AllocType_Delete) :
    ∀ s : Analysis, frees.length ≤ s.objectAllocs.length →
      ∃ s', runFrom s frees = some s' ∧ s'.totalAlloc = s.totalAlloc ∧
        s'.totalDealloc % ullMod =
          (s.totalDealloc
            + ((s.objectAllocs.map AllocEvent.size).take frees.length).sum) % ullMod ∧
        (s.totalDealloc < ullMod → s'.totalDealloc < ullMod) := by
  induction frees with
  | nil =>
    intro s _
    exact ⟨s, rfl, rfl, by simp, fun h => h⟩
  | cons f fs ih =>
    intro s hlen
    cases hq : s.objectAllocs with
    | nil => simp [hq] at hlen
    | cons q₀ q =>
      obtain ⟨s₁, hstep, ta, td, tq, -⟩ :=
        step_delete s f q₀ q (hf f (List.mem_cons_self _ _)) hq
      obtain ⟨s', r1, r2, r3, r4⟩ := ih (fun x hx => hf x (List.mem_cons_of_mem _ hx)) s₁
        (by rw [tq]; simpa [hq] using hlen)
      refine ⟨s', by simp only [runFrom, hstep]; exact r1, r2.trans ta, ?_, ?_⟩
      · rw [r3, td, tq]
        simp only [List.map_cons, List.length_cons, List.take_succ_cons, List.sum_cons]
        rw [Nat.mod_add_mod, Nat.add_assoc]
      · intro _
        exact r4 (by rw [td]; exact Nat.mod_lt _ (by decide))

theorem freesMatch_deletes (frees : List AllocEvent)
    (hf : ∀ e ∈ frees, e.type = AllocType_Delete) :
    ∀ s : Analysis, frees.length ≤ s.objectAllocs.length → freesMatch s frees = true := by
  induction frees with
  | nil => intro s _; rfl
  | cons f fs ih =>
    intro s hlen
    have hfd : f.type = AllocType_Delete := hf f (List.mem_cons_self _ _)
    cases hq : s.objectAllocs with
    | nil => simp [hq] at hlen
    | cons q₀ q =>
      obtain ⟨s₁, hstep, -, -, tq, -⟩ := step_delete s f q₀ q hfd hq
      have := ih (fun x hx => hf x (List.mem_cons_of_mem _ hx)) s₁
        (by rw [tq]; simpa [hq] using hlen)
      simp [freesMatch, hfd, hq, hstep, this]

theorem smallestSum_perm (l₁ l₂ : List Nat) (h : l₁.Perm l₂) (k : Nat) :
    smallestSum l₁ k = smallestSum l₂ k := by
  have : l₁.insertionSort (fun a b => a ≤ b) = l₂.insertionSort (fun a b => a ≤ b) :=
    List.eq_of_perm_of_sorted
      (((List.perm_insertionSort _ l₁).trans h).trans (List.perm_insertionSort _ l₂).symm)
      (List.sorted_insertionSort _ l₁) (List.sorted_insertionSort _ l₂)
  simp only [smallestSum, this]

theorem countAllocs_news (allocs : List AllocEvent)
    (ha : ∀ e ∈ allocs, e.type = AllocType_New) : countAllocs allocs = allocs.length := by
  rw [countAllocs, List.countP_eq_length]
  intro e he
  simp [ha e he]

theorem countAllocs_deletes (frees : List AllocEvent)
    (hf : ∀ e ∈ frees, e.type = AllocType_Delete) : countAllocs frees = 0 := by
  rw [countAllocs, List.countP_eq_zero]
  intro e he
  simp [hf e he]

theorem countFrees_deletes (frees : List AllocEvent)
    (hf : ∀ e ∈ frees, e.type = AllocType_Delete) : countFrees frees = frees.length := by
  rw [countFrees, List.countP_eq_length]
  intro e he
  simp [hf e he]

theorem allocEntries_deletes (frees : List AllocEvent)
    (hf : ∀ e ∈ frees, e.type = AllocType_Delete) : allocEntries frees = [] := by
  induction frees with
  | nil => rfl
  | cons f fs ih =>
    have hfd : f.type = AllocType_Delete := hf f (List.mem_cons_self _ _)
    simp [allocEntries, hfd, ih (fun x hx => hf x (List.mem_cons_of_mem _ hx))]

theorem news_then_some_deletes (allocs frees : List AllocEvent)
    (ha : ∀ e ∈ allocs, e.type = AllocType_New)
    (hptr : (allocs.map AllocEvent.ptr).Nodup)
    (hf : ∀ e ∈ frees, e.type = AllocType_Delete)
    (hle : frees.length ≤ allocs.length) :
    ∃ r, analysis (allocs ++ frees) = some r ∧
      r.totalAllocated = (allocs.map AllocEvent.size).sum % ullMod ∧
      r.totalDeallocated = smallestSum (allocs.map AllocEvent.size) frees.length % ullMod ∧
      r.totalLeakedCount = allocs.length - frees.length := by
  obtain ⟨s₁, h1, h2, h3, h4⟩ := runFrom_news allocs ha Analysis.init
  simp only [Analysis.init, List.append_nil, List.nil_append] at h2 h3 h4
  have hsorted : s₁.objectAllocs.Pairwise (fun x y => x.size ≤ y.size) :=
    runFrom_news_sorted allocs ha Analysis.init s₁ h1 List.Pairwise.nil
  have hlen : frees.length ≤ s₁.objectAllocs.length := by rw [h3.length_eq]; exact hle
  have htot : s₁.totalAlloc = allocatedSizes allocs % ullMod :=
    runEvents_totalAlloc allocs s₁ h1
  have hlt : s₁.totalAlloc < ullMod := by rw [htot]; exact Nat.mod_lt _ (by decide)
  -- the sizes in the queue are the sorted sizes
  have hsizes : s₁.objectAllocs.map AllocEvent.size
      = (allocs.map AllocEvent.size).insertionSort (fun a b => a ≤ b) :=
    List.eq_of_perm_of_sorted
      ((h3.map AllocEvent.size).trans (List.perm_insertionSort _ _).symm)
      (List.pairwise_map.mpr hsorted) (List.sorted_insertionSort _ _)
  -- the totals after the deletes
  obtain ⟨s₂, k1, k2, k3, k4⟩ := runFrom_deletes_take frees hf s₁ hlen
  -- the count after the deletes
  obtain ⟨s₃, c1, -, -, -, c5⟩ := conservation_from frees s₁
    (by
      rw [allocEntries_deletes frees hf, List.append_nil, h4, List.map_map]
      exact hptr)
    (by
      intro p hp
      rw [h4] at hp
      obtain ⟨e, -, rfl⟩ := List.mem_map.mp hp
      rfl)
    (by
      intro q hq
      have hq' : q ∈ allocs := h3.subset hq
      exact ⟨ha q hq', by rw [h4]; exact List.mem_map.mpr ⟨q, hq', rfl⟩⟩)
    (h3.nodup_iff.mpr (List.Nodup.of_map _ hptr))
    hlt (by rw [h2]; decide)
    (by
      rw [h2, h4, htot, allocatedSizes_news allocs ha]
      simp [outstandingSizes, List.map_map, Function.comp_def])
    (freesMatch_deletes frees hf s₁ hlen)
  have hs : s₃ = s₂ := Option.some.inj (c1.symm.trans k1)
  subst hs
  have hrun : runEvents (allocs ++ frees) = some s₃ := by
    rw [runEvents, runFrom_append, h1]; exact k1
  refine ⟨report s₃, by simp only [analysis, hrun, Option.map_some'], ?_, ?_, ?_⟩
  · show s₃.totalAlloc = _
    rw [k2, htot, allocatedSizes_news allocs ha]
  · show s₃.totalDealloc = _
    have hd : s₃.totalDealloc < ullMod := k4 (by rw [h2]; decide)
    rw [← Nat.mod_eq_of_lt hd, k3, h2, hsizes, Nat.zero_add, smallestSum]
  · show s₃.allocated.length = _
    rw [countFrees_deletes frees hf, countAllocs_deletes frees hf, h4,
      List.length_map] at c5
    omega

/-- C17: two logs that hold the same `new` events (pairwise distinct addresses) in two
orders, each followed by the same number `k` of `delete` events, `k` at most the number of
`new` events, both run to the end, and their reports agree in the allocated total, in the
deallocated total and in the leaked count, which is the number of `new` events minus `k`;
the deallocated total is the sum of the `k` smallest sizes modulo `2 ^ 64`, a function of
the multiset of sizes and of `k`. -/
theorem size_heuristic_order_independent (allocs₁ allocs₂ frees₁ frees₂ : List AllocEvent)
    (hperm : allocs₁.Perm allocs₂)
    (ha : ∀ e ∈ allocs₁, e.type = AllocType_New)
    (hptr : (allocs₁.map AllocEvent.ptr).Nodup)
    (hf₁ : ∀ e ∈ frees₁, e.type = AllocType_Delete)
    (hf₂ : ∀ e ∈ frees₂, e.type = AllocType_Delete)
    (hk : frees₂.length = frees₁.length) (hle : frees₁.length ≤ allocs₁.length) :
    ∃ r₁ r₂, analysis (allocs₁ ++ frees₁) = some r₁ ∧ analysis (allocs₂ ++ frees₂) = some r₂ ∧
      r₁.totalAllocated = r₂.totalAllocated ∧
      r₁.totalDeallocated = r₂.totalDeallocated ∧
      r₁.totalLeakedCount = allocs₁.length - frees₁.length ∧
      r₂.totalLeakedCount = allocs₁.length - frees₁.length ∧
      r₁.totalDeallocated
        = smallestSum (allocs₁.map AllocEvent.size) frees₁.length % ullMod := by
  obtain ⟨r₁, a1, a2, a3, a4⟩ := news_then_some_deletes allocs₁ frees₁ ha hptr hf₁ hle
  obtain ⟨r₂, b1, b2, b3, b4⟩ := news_then_some_deletes allocs₂ frees₂
    (fun e he => ha e (hperm.symm.subset he))
    ((hperm.map AllocEvent.ptr).nodup_iff.mp hptr) hf₂
    (by rw [hk, ← hperm.length_eq]; exact hle)
  refine ⟨r₁, r₂, a1, b1, ?_, ?_, a4, ?_, a3⟩
  · rw [a2, b2, (hperm.map AllocEvent.size).sum_eq]
  · rw [a3, b3, hk, smallestSum_perm _ _ (hperm.map AllocEvent.size)]
  · rw [b4, hk, hperm.length_eq]

/-- The theorem `size_heuristic_order_independent` at three objects in two orders and two
`delete` events. -/
theorem size_heuristic_order_independent_witness :
    analysis ([sampleNew 10 1, sampleNew 30 2, sampleNew 20 3] ++ [sampleDelete, sampleDelete])
      = some { totalAllocated := 60, totalDeallocated := 30, totalLeakedSize := 30,
               totalLeakedCount := 1,
               leakLines := [LeakLine.possibleLeakedObject 30 "main" "main.cpp" 10] } ∧
    analysis ([sampleNew 30 2, sampleNew 20 3, sampleNew 10 1] ++ [sampleDelete, sampleDelete])
      = some { totalAllocated := 60, totalDeallocated := 30, totalLeakedSize := 30,
               totalLeakedCount := 1,
               leakLines := [LeakLine.possibleLeakedObject 30 "main" "main.cpp" 10] } ∧
    ∃ r₁ r₂,
      analysis ([sampleNew 10 1, sampleNew 30 2, sampleNew 20 3]
        ++ [sampleDelete, sampleDelete]) = some r₁ ∧
      analysis ([sampleNew 30 2, sampleNew 20 3, sampleNew 10 1]
        ++ [sampleDelete, sampleDelete]) = some r₂ ∧
      r₁.totalAllocated = r₂.totalAllocated ∧
      r₁.totalDeallocated = r₂.totalDeallocated ∧
      r₁.totalLeakedCount
        = [sampleNew 10 1, sampleNew 30 2, sampleNew 20 3].length
          - [sampleDelete, sampleDelete].length ∧
      r₂.totalLeakedCount
        = [sampleNew 10 1, sampleNew 30 2, sampleNew 20 3].length
          - [sampleDelete, sampleDelete].length ∧
      r₁.totalDeallocated
        = smallestSum ([sampleNew 10 1, sampleNew 30 2, sampleNew 20 3].map AllocEvent.size)
            [sampleDelete, sampleDelete].length % ullMod :=
  ⟨by decide, by decide,
    size_heuristic_order_independent [sampleNew 10 1, sampleNew 30 2, sampleNew 20 3]
      [sampleNew 30 2, sampleNew 20 3, sampleNew 10 1] [sampleDelete, sampleDelete]
      [sampleDelete, sampleDelete]
      (by decide) (by decide) (by decide) (by decide) (by decide) rfl (by decide)⟩

end EasyAntiLeak
